import Mathlib

/-!
Verification of the N-bit integer arithmetic library in
src/python/arith_algorithms.py.

The Python functions are embedded shallowly: Python arbitrary-precision
integers become Lean `Int`, Python bitwise operators become the
two's-complement bitwise operations on `Int` (`Int.land`, `Int.lor`,
`Int.not`, `Int.shiftRight`), the flags dictionary becomes a structure of
optional fields, and the one failure (`raise ValueError("Division by
zero")`) becomes `Option`.  Python specifics used in the translation:
`x & y`, `x | y`, `~x` act on the infinite two's-complement representation
(exactly `Int.land`, `Int.lor`, `Int.not`); `x >> s` is an arithmetic
(floor) shift, `Int.shiftRight`; `x << s` equals `x * 2 ^ s` for every
integer `x`; `1 << k` is written `2 ^ k`; Python `%` on a positive modulus
and Lean `Int.emod` agree.
-/

namespace ArithAlgorithms

/-! ### Bridge lemmas: Python bitwise operators as arithmetic -/

/-- Reduction of `Int.land` on nonnegative inputs. -/
theorem int_land_ofNat (m n : Nat) : Int.land (Int.ofNat m) (Int.ofNat n) = Int.ofNat (m &&& n) :=
  rfl

/-- Reduction of `Int.land` on a negative first input. -/
theorem int_land_negSucc (m n : Nat) :
    Int.land (Int.negSucc m) (Int.ofNat n) = Int.ofNat (Nat.ldiff n m) :=
  rfl

/-- Masking a natural number with an all-ones mask is reduction mod a power of two. -/
theorem nat_ldiff_two_pow_sub_one (w m : Nat) :
    Nat.ldiff (2 ^ w - 1) m = 2 ^ w - 1 - m % 2 ^ w := by
  apply Nat.eq_of_testBit_eq
  intro i
  have hr : m % 2 ^ w < 2 ^ w := Nat.mod_lt _ (Nat.two_pow_pos w)
  rw [Nat.testBit_ldiff, Nat.testBit_two_pow_sub_one,
    show 2 ^ w - 1 - m % 2 ^ w = 2 ^ w - (m % 2 ^ w + 1) by omega,
    Nat.testBit_two_pow_sub_succ hr, Nat.testBit_mod_two_pow]
  cases h : decide (i < w) <;> simp

/-- Python `v & ((1 << w) - 1)` computes the mathematical residue `v mod 2 ^ w`. -/
theorem int_land_two_pow_sub_one (v : Int) (w : Nat) :
    Int.land v ((2 : Int) ^ w - 1) = v % 2 ^ w := by
  have h1 : (1 : Nat) ≤ 2 ^ w := Nat.one_le_two_pow
  have hcast : ((2 : Int) ^ w - 1) = Int.ofNat (2 ^ w - 1) := by
    simp only [Int.ofNat_eq_coe]
    push_cast [h1]
    ring
  cases v with
  | ofNat n =>
    rw [hcast, int_land_ofNat, Nat.and_pow_two_sub_one_eq_mod]
    simp only [Int.ofNat_eq_coe]
    push_cast
    rfl
  | negSucc m =>
    rw [hcast, int_land_negSucc, nat_ldiff_two_pow_sub_one]
    rw [Int.negSucc_emod]
    · have hr : m % 2 ^ w < 2 ^ w := Nat.mod_lt _ (Nat.two_pow_pos w)
      simp only [Int.ofNat_eq_coe]
      push_cast [Nat.one_le_two_pow, hr.le, Nat.le_sub_one_of_lt hr]
      ring
    · positivity

/-- Python `v & 1` is the parity of `v`. -/
theorem int_land_one (v : Int) : Int.land v 1 = v % 2 := by
  have h := int_land_two_pow_sub_one v 1
  norm_num at h
  exact h

/-- Python `v >> k` is floor division by `2 ^ k`, which for a positive divisor
agrees with Lean's euclidean `/` on `Int`. -/
theorem int_shiftRight_eq_div (v : Int) (k : Nat) : v >>> k = v / 2 ^ k := by
  cases v with
  | ofNat n =>
    show Int.ofNat (n >>> k) = _
    rw [Nat.shiftRight_eq_div_pow]
    simp only [Int.ofNat_eq_coe]
    push_cast
    rfl
  | negSucc m =>
    show Int.negSucc (m >>> k) = _
    rw [Int.negSucc_ediv m (by positivity : (0 : Int) < 2 ^ k), Nat.shiftRight_eq_div_pow,
      Int.negSucc_eq]
    have h : Int.ediv (m : Int) ((2 : Int) ^ k) = ((m / 2 ^ k : Nat) : Int) := by
      show (m : Int) / ((2 : Int) ^ k) = _
      push_cast
      rfl
    rw [h]

/-- Python `x | y` on nonnegative inputs. -/
theorem int_lor_ofNat (m n : Nat) : Int.lor (Int.ofNat m) (Int.ofNat n) = Int.ofNat (m ||| n) :=
  rfl

/-- Setting disjoint low bits with `|` is addition: `(2 * a) ||| b = 2 * a + b` for `b < 2`. -/
theorem nat_two_mul_lor (a b : Nat) (hb : b < 2) : 2 * a ||| b = 2 * a + b := by
  have := Nat.mul_add_lt_is_or (i := 1) (by simpa using hb) a
  simpa [Nat.pow_one] using this.symm

/-- Reduction of `Int.land` on a negative second input. -/
theorem int_land_ofNat_negSucc (m n : Nat) :
    Int.land (Int.ofNat m) (Int.negSucc n) = Int.ofNat (Nat.ldiff m n) :=
  rfl

/-- Python `q & ~1` clears the low bit; on an even natural it is the identity. -/
theorem int_land_not_one (q : Nat) (hq : q % 2 = 0) :
    Int.land (Int.ofNat q) (Int.not 1) = Int.ofNat q := by
  have h1 : Int.not 1 = Int.negSucc 1 := rfl
  rw [h1, int_land_ofNat_negSucc]
  congr 1
  apply Nat.eq_of_testBit_eq
  intro i
  rw [Nat.testBit_ldiff]
  match i with
  | 0 =>
    simp [Nat.testBit_zero, hq]
  | i + 1 =>
    have : Nat.testBit 1 (i + 1) = false := by
      simp [Nat.testBit_succ]
    simp [this]

/-! ### Embedded source: bit-width utilities -/

/-- Python source: `def mask_to_width(value, width): return value & ((1 << width) - 1)`.
Python `&` on arbitrary-precision integers is `Int.land`; `1 << width` is `2 ^ width`. -/
def mask_to_width (value : Int) (width : Nat) : Int :=
  Int.land value (2 ^ width - 1)

/-- Python source: `def sign_extend(value, width): if value & (1 << (width - 1)): return
value - (1 << width); return value`.  Python truthiness of an int is being nonzero. -/
def sign_extend (value : Int) (width : Nat) : Int :=
  if Int.land value (2 ^ (width - 1)) ≠ 0 then value - 2 ^ width
  else value

/-- Python source: `def to_unsigned(value, width): if value < 0: return (1 << width) + value;
return value`. -/
def to_unsigned (value : Int) (width : Nat) : Int :=
  if value < 0 then 2 ^ width + value
  else value

/-- Python source of `arithmetic_right_shift` (src/python/arith_algorithms.py lines 32-44):
the fill mask `((1 << shift) - 1) << (width - shift)` is written
`(2 ^ shift - 1) * 2 ^ (width - shift)` (a left shift of a nonnegative int is
multiplication by a power of two), and Python `>>` is `Int.shiftRight` (`>>>`).
Python raises on a negative shift count, so the translation is meaningful for
`shift ≤ width` (the range the spec demands). -/
def arithmetic_right_shift (value : Int) (shift width : Nat) : Int :=
  if shift = 0 then value
  else
    let sign_bit := Int.land value (2 ^ (width - 1))
    if sign_bit ≠ 0 then
      Int.land (Int.lor (value >>> shift) ((2 ^ shift - 1) * 2 ^ (width - shift))) (2 ^ width - 1)
    else
      value >>> shift

/-! ### Embedded source: add / sub with flags -/

/-- Model of the Python flags dictionary `Dict[str, Any]`.  Each operation stores at
most one of these keys; an absent key is `none`.  In the source `carry_out` is the
int `(result >> width) & 1` (Python treats `1`/`0` and `True`/`False` as equal),
while `overflow` and `borrow` are genuine bools. -/
structure Flags where
  carry_out : Option Int := none
  overflow : Option Bool := none
  borrow : Option Bool := none
deriving Repr, DecidableEq

/-- Python source of `add` (lines 47-76): mask both operands, add in unbounded
arithmetic, extract `carry_out = (result >> width) & 1`, remask; on the signed path
compute `overflow = (a_sign == b_sign) and (a_sign != result_sign)` from bit
`width - 1` of the masked operands and result. -/
def add (a b : Int) (width : Nat) (signed : Bool) : Int × Flags :=
  let a1 := mask_to_width a width
  let b1 := mask_to_width b width
  let sum := a1 + b1
  let carry_out := Int.land (sum >>> width) 1
  let result := mask_to_width sum width
  if signed then
    let a_sign := Int.land (a1 >>> (width - 1)) 1
    let b_sign := Int.land (b1 >>> (width - 1)) 1
    let result_sign := Int.land (result >>> (width - 1)) 1
    let overflow := (a_sign == b_sign) && (a_sign != result_sign)
    (result, { overflow := some overflow })
  else
    (result, { carry_out := some carry_out })

/-- Python source of `sub` (lines 79-101): two's complement of the masked `b` is
`mask_to_width (~b + 1) width`; the work is delegated to `add`; the unsigned flag is
`borrow = not add_flags.get('carry_out', False)` (true exactly when the stored
carry int is zero), the signed flag is `overflow = add_flags.get('overflow', False)`. -/
def sub (a b : Int) (width : Nat) (signed : Bool) : Int × Flags :=
  let a1 := mask_to_width a width
  let b1 := mask_to_width b width
  let b_complement := mask_to_width (Int.not b1 + 1) width
  let ra := add a1 b_complement width signed
  if signed then
    (ra.1, { overflow := some (ra.2.overflow.getD false) })
  else
    (ra.1, { borrow := some (ra.2.carry_out.getD 0 == 0) })

/-! ### Arithmetic characterizations of the embedded operations -/

/-- Python `~v` is `-v - 1`. -/
theorem int_not_eq (v : Int) : Int.not v = -v - 1 := by
  cases v with
  | ofNat n =>
    show Int.negSucc n = _
    rw [Int.negSucc_eq, Int.ofNat_eq_coe]
    ring
  | negSucc n =>
    show Int.ofNat n = _
    rw [Int.negSucc_eq, Int.ofNat_eq_coe]
    ring

theorem mask_to_width_eq (v : Int) (w : Nat) : mask_to_width v w = v % 2 ^ w :=
  int_land_two_pow_sub_one v w

theorem mask_to_width_nonneg (v : Int) (w : Nat) : 0 ≤ mask_to_width v w := by
  rw [mask_to_width_eq]
  exact Int.emod_nonneg v (by positivity)

theorem mask_to_width_lt (v : Int) (w : Nat) : mask_to_width v w < 2 ^ w := by
  rw [mask_to_width_eq]
  have h := Int.emod_lt_of_pos v (show (0 : Int) < 2 ^ w by positivity)
  simpa using h

/-- Evaluation of unsigned `add` in pure modular arithmetic. -/
theorem add_unsigned_eq (a b : Int) (w : Nat) :
    add a b w false = ((a % 2 ^ w + b % 2 ^ w) % 2 ^ w,
      { carry_out := some ((a % 2 ^ w + b % 2 ^ w) / 2 ^ w % 2) }) := by
  simp [add, mask_to_width, int_land_two_pow_sub_one, int_shiftRight_eq_div, int_land_one]

/-- Evaluation of signed `add` in pure modular arithmetic. -/
theorem add_signed_eq (a b : Int) (w : Nat) :
    add a b w true = ((a % 2 ^ w + b % 2 ^ w) % 2 ^ w,
      { overflow := some ((a % 2 ^ w / 2 ^ (w - 1) % 2 == b % 2 ^ w / 2 ^ (w - 1) % 2)
          && (a % 2 ^ w / 2 ^ (w - 1) % 2 != (a % 2 ^ w + b % 2 ^ w) % 2 ^ w / 2 ^ (w - 1) % 2)) }) := by
  simp [add, mask_to_width, int_land_two_pow_sub_one, int_shiftRight_eq_div, int_land_one]

/-- Unfolding of `sub`: both operands are masked and the two's complement of the
masked subtrahend is handed to `add`. -/
theorem sub_unfold (a b : Int) (w : Nat) (s : Bool) :
    sub a b w s =
      (let ra := add (a % 2 ^ w) ((-(b % 2 ^ w) - 1 + 1) % 2 ^ w) w s
       if s then (ra.1, { overflow := some (ra.2.overflow.getD false) })
       else (ra.1, { borrow := some (ra.2.carry_out.getD 0 == 0) })) := by
  simp only [sub, mask_to_width_eq, int_not_eq]

example : add 200 100 8 false = (44, { carry_out := some 1 }) := by decide
example : add 100 50 8 false = (150, { carry_out := some 0 }) := by decide
example : add 100 50 8 true = (150, { overflow := some true }) := by decide
example : sub (-128) 1 8 true = (127, { overflow := some true }) := by
  rw [sub_unfold]
  norm_num [add_signed_eq]
example : sub 5 7 8 false = (254, { borrow := some true }) := by
  rw [sub_unfold]
  norm_num [add_unsigned_eq]
example : sub 7 5 8 false = (2, { borrow := some false }) := by
  rw [sub_unfold]
  norm_num [add_unsigned_eq]

/-! ### Characterization of sign_extend -/

theorem two_pow_pred (w : Nat) (h : 1 ≤ w) : (2 : Int) ^ w = 2 * 2 ^ (w - 1) := by
  obtain ⟨w', rfl⟩ : ∃ w', w = w' + 1 := ⟨w - 1, by omega⟩
  simp only [Nat.add_sub_cancel, pow_succ]
  ring

/-- On an in-range raw value, the sign-bit test of `sign_extend` is the comparison
with `2 ^ (width - 1)`. -/
theorem sign_extend_eq (r : Int) (w : Nat) (h0 : 0 ≤ r) (h2 : r < 2 ^ w) :
    sign_extend r w = if 2 ^ (w - 1) ≤ r then r - 2 ^ w else r := by
  obtain ⟨n, rfl⟩ := Int.eq_ofNat_of_zero_le h0
  have hn : n < 2 ^ w := by exact_mod_cast h2
  have hcast : ((2 ^ (w - 1) : Nat) : Int) = 2 ^ (w - 1) := by
    push_cast
    rfl
  have hland : Int.land (n : Int) (2 ^ (w - 1)) = ((n &&& 2 ^ (w - 1) : Nat) : Int) := by
    rw [← hcast, ← Int.ofNat_eq_coe, ← Int.ofNat_eq_coe, ← Int.ofNat_eq_coe]
    exact int_land_ofNat n _
  have hbit : (n &&& 2 ^ (w - 1) ≠ 0) ↔ 2 ^ (w - 1) ≤ n := by
    rw [Nat.and_two_pow]
    rcases w with _ | w'
    · interval_cases n
      simp
    · have hp : 2 ^ (w' + 1) = 2 * 2 ^ w' := by ring
      simp only [Nat.add_sub_cancel]
      rw [Nat.testBit_to_div_mod]
      have hd2 : n / 2 ^ w' < 2 := by
        rw [Nat.div_lt_iff_lt_mul (Nat.two_pow_pos w')]
        omega
      have hd1 : 2 ^ w' ≤ n ↔ 1 ≤ n / 2 ^ w' := by
        rw [Nat.le_div_iff_mul_le (Nat.two_pow_pos w')]
        omega
      rcases Nat.lt_or_ge n (2 ^ w') with hlt | hge
      · have : n / 2 ^ w' = 0 := Nat.div_eq_of_lt hlt
        simp [this]
        omega
      · have : n / 2 ^ w' = 1 := by omega
        simp [this]
        omega
  unfold sign_extend
  rw [hland]
  have hle : ((2 : Int) ^ (w - 1) ≤ (n : Int)) ↔ 2 ^ (w - 1) ≤ n := by
    rw [← hcast]
    exact Nat.cast_le
  have hcond : (((n &&& 2 ^ (w - 1) : Nat) : Int) ≠ 0) = ((2 : Int) ^ (w - 1) ≤ (n : Int)) := by
    apply propext
    rw [hle]
    simp only [ne_eq, Int.natCast_eq_zero]
    exact hbit
  simp only [hcond]

/-- The sign-extended interpretation is congruent to the raw value mod `2 ^ w`. -/
theorem sign_extend_emod (r : Int) (w : Nat) (h0 : 0 ≤ r) (h2 : r < 2 ^ w) :
    sign_extend r w % 2 ^ w = r % 2 ^ w := by
  rw [sign_extend_eq r w h0 h2]
  split
  · rw [show r - 2 ^ w = r + 2 ^ w * -1 by ring]
    exact Int.add_mul_emod_self_left r (2 ^ w) (-1)
  · rfl

/-- Range of the sign-extended interpretation. -/
theorem sign_extend_bounds (r : Int) (w : Nat) (h1 : 1 ≤ w) (h0 : 0 ≤ r) (h2 : r < 2 ^ w) :
    -(2 ^ (w - 1)) ≤ sign_extend r w ∧ sign_extend r w < 2 ^ (w - 1) := by
  have hp := two_pow_pred w h1
  rw [sign_extend_eq r w h0 h2]
  have hpos : (0 : Int) < 2 ^ (w - 1) := by positivity
  split <;> omega

/-- Sign extension inverts masking on every representable signed value. -/
theorem sign_extend_mask_eq_self (x : Int) (w : Nat) (h1 : 1 ≤ w)
    (hlo : -(2 ^ (w - 1)) ≤ x) (hhi : x < 2 ^ (w - 1)) :
    sign_extend (mask_to_width x w) w = x := by
  have hp := two_pow_pred w h1
  have hpos : (0 : Int) < 2 ^ (w - 1) := by positivity
  rw [mask_to_width_eq]
  rcases le_or_lt 0 x with hx | hx
  · have hmod : x % 2 ^ w = x := Int.emod_eq_of_lt hx (by omega)
    rw [hmod, sign_extend_eq x w hx (by omega)]
    split <;> omega
  · have hmod : x % 2 ^ w = x + 2 ^ w := by
      have h := Int.add_mul_emod_self_left (a := x) (b := 2 ^ w) (c := 1)
      simp only [mul_one] at h
      rw [← h]
      exact Int.emod_eq_of_lt (by omega) (by omega)
    rw [hmod, sign_extend_eq (x + 2 ^ w) w (by omega) (by omega)]
    split <;> omega

/-- Congruence: sign-extending the mask of `x` is congruent to `x` mod `2 ^ w`. -/
theorem sign_extend_mask_emod (x : Int) (w : Nat) :
    sign_extend (mask_to_width x w) w % 2 ^ w = x % 2 ^ w := by
  rw [mask_to_width_eq]
  rw [sign_extend_emod (x % 2 ^ w) w (Int.emod_nonneg x (by positivity))
    (by simpa using Int.emod_lt_of_pos x (show (0 : Int) < 2 ^ w by positivity))]
  exact Int.emod_emod_of_dvd x dvd_rfl

/-! ### Embedded source: the four multipliers -/

/-- The shift-add accumulation loop shared by `mul_sequential` and `mul_bit`
(Python: `for i in range(width): if b & (1 << i): product += a << i`, where
`a << i` is `a * 2 ^ i`).  `shift_add_loop a b n` is the accumulator after the
iterations `i = 0, ..., n - 1`. -/
def shift_add_loop (a b : Int) : Nat → Int
  | 0 => 0
  | n + 1 => shift_add_loop a b n + (if Int.land b (2 ^ n) ≠ 0 then a * 2 ^ n else 0)

/-- Python source of `mul_sequential` (lines 104-136). -/
def mul_sequential (a b : Int) (width : Nat) (signed : Bool) : Int × Flags :=
  if signed then
    let a1 := sign_extend (mask_to_width a width) width
    let b1 := sign_extend (mask_to_width b width) width
    let result_negative := decide (a1 < 0) != decide (b1 < 0)
    let a2 := |a1|
    let b2 := |b1|
    let product := shift_add_loop a2 b2 width
    let product1 := if result_negative then -product else product
    (mask_to_width product1 (2 * width), {})
  else
    let a1 := mask_to_width a width
    let b1 := mask_to_width b width
    (mask_to_width (shift_add_loop a1 b1 width) (2 * width), {})

/-- Python source of `mul_booth` (lines 139-157): unsigned inputs delegate to
`mul_sequential`; signed inputs sign-extend and multiply directly. -/
def mul_booth (a b : Int) (width : Nat) (signed : Bool) : Int × Flags :=
  if !signed then mul_sequential a b width signed
  else
    let a_signed := sign_extend (mask_to_width a width) width
    let b_signed := sign_extend (mask_to_width b width) width
    (mask_to_width (a_signed * b_signed) (2 * width), {})

/-- Python source of `mul_bit` (lines 160-189): textually the same partial-product
accumulation as `mul_sequential`. -/
def mul_bit (a b : Int) (width : Nat) (signed : Bool) : Int × Flags :=
  if signed then
    let a1 := sign_extend (mask_to_width a width) width
    let b1 := sign_extend (mask_to_width b width) width
    let result_negative := decide (a1 < 0) != decide (b1 < 0)
    let a2 := |a1|
    let b2 := |b1|
    let product := shift_add_loop a2 b2 width
    let product1 := if result_negative then -product else product
    (mask_to_width product1 (2 * width), {})
  else
    let a1 := mask_to_width a width
    let b1 := mask_to_width b width
    (mask_to_width (shift_add_loop a1 b1 width) (2 * width), {})

/-- Python source of `mul_bitpair` (lines 192-210): same shape as `mul_booth`. -/
def mul_bitpair (a b : Int) (width : Nat) (signed : Bool) : Int × Flags :=
  if !signed then mul_sequential a b width signed
  else
    let a_signed := sign_extend (mask_to_width a width) width
    let b_signed := sign_extend (mask_to_width b width) width
    (mask_to_width (a_signed * b_signed) (2 * width), {})

/-! ### Multiplier correctness lemmas -/

/-- The shift-add loop over the low `n` bits of a nonnegative multiplier computes
multiplication by the residue mod `2 ^ n`. -/
theorem shift_add_loop_eq (a : Int) (b n : Nat) :
    shift_add_loop a (b : Int) n = a * ((b % 2 ^ n : Nat) : Int) := by
  induction n with
  | zero => simp [shift_add_loop]
  | succ n ih =>
    have hcast : ((2 ^ n : Nat) : Int) = 2 ^ n := by
      push_cast
      rfl
    have hland : Int.land (b : Int) (2 ^ n) = ((b &&& 2 ^ n : Nat) : Int) := by
      rw [← hcast, ← Int.ofNat_eq_coe, ← Int.ofNat_eq_coe, ← Int.ofNat_eq_coe]
      exact int_land_ofNat b _
    show shift_add_loop a (b : Int) n + _ = _
    rw [ih, hland, Nat.and_two_pow, Nat.mod_pow_succ]
    rcases h : b.testBit n with _ | _
    · have hz : b / 2 ^ n % 2 = 0 := by
        have h3 : ¬ (b / 2 ^ n % 2 = 1) := by simpa [Nat.testBit_to_div_mod] using h
        omega
      simp [hz]
    · have ho : b / 2 ^ n % 2 = 1 := by simpa [Nat.testBit_to_div_mod] using h
      have hpow : ((2 ^ n : Nat) : Int) ≠ 0 := by positivity
      simp only [Bool.toNat_true, one_mul, ho]
      rw [if_pos hpow]
      push_cast
      ring

/-- Sign-magnitude recombination: the sign-corrected product of absolute values is
the true product. -/
theorem sign_magnitude_mul (x y : Int) :
    (if (decide (x < 0) != decide (y < 0)) = true then -(|x| * |y|) else |x| * |y|) = x * y := by
  rcases lt_or_ge x 0 with hx | hx <;> rcases lt_or_ge y 0 with hy | hy
  · rw [if_neg (by simp [hx, hy])]
    rw [abs_of_neg hx, abs_of_neg hy]
    ring
  · rw [if_pos (by simp [hx, not_lt_of_ge hy])]
    rw [abs_of_neg hx, abs_of_nonneg hy]
    ring
  · rw [if_pos (by simp [not_lt_of_ge hx, hy])]
    rw [abs_of_nonneg hx, abs_of_neg hy]
    ring
  · rw [if_neg (by simp [not_lt_of_ge hx, not_lt_of_ge hy])]
    rw [abs_of_nonneg hx, abs_of_nonneg hy]

/-- The loop applied to an in-range nonnegative multiplier is plain multiplication. -/
theorem shift_add_loop_eq_mul (a x : Int) (w : Nat) (h0 : 0 ≤ x) (h2 : x < 2 ^ w) :
    shift_add_loop a x w = a * x := by
  obtain ⟨n, rfl⟩ := Int.eq_ofNat_of_zero_le h0
  have hn : n < 2 ^ w := by exact_mod_cast h2
  rw [shift_add_loop_eq]
  congr 1
  rw [Nat.mod_eq_of_lt hn]

theorem mul_sequential_unsigned_eq (a b : Int) (w : Nat) :
    mul_sequential a b w false = ((a % 2 ^ w) * (b % 2 ^ w) % 2 ^ (2 * w), ({} : Flags)) := by
  simp only [mul_sequential, Bool.false_eq_true, if_false]
  rw [shift_add_loop_eq_mul _ _ w (mask_to_width_nonneg b w) (mask_to_width_lt b w)]
  rw [mask_to_width_eq, mask_to_width_eq, mask_to_width_eq]

theorem mul_sequential_signed_eq (a b : Int) (w : Nat) (h1 : 1 ≤ w) :
    mul_sequential a b w true =
      (sign_extend (mask_to_width a w) w * sign_extend (mask_to_width b w) w % 2 ^ (2 * w),
        ({} : Flags)) := by
  simp only [mul_sequential, if_true]
  have hb := sign_extend_bounds (mask_to_width b w) w h1 (mask_to_width_nonneg b w)
    (mask_to_width_lt b w)
  have hp := two_pow_pred w h1
  have hpos : (0 : Int) < 2 ^ (w - 1) := by positivity
  have habs2 : |sign_extend (mask_to_width b w) w| < 2 ^ w := by
    rw [abs_lt]
    omega
  rw [shift_add_loop_eq_mul _ _ w (abs_nonneg _) habs2, sign_magnitude_mul, mask_to_width_eq]

theorem mul_bit_unsigned_eq (a b : Int) (w : Nat) :
    mul_bit a b w false = ((a % 2 ^ w) * (b % 2 ^ w) % 2 ^ (2 * w), ({} : Flags)) := by
  simp only [mul_bit, Bool.false_eq_true, if_false]
  rw [shift_add_loop_eq_mul _ _ w (mask_to_width_nonneg b w) (mask_to_width_lt b w)]
  rw [mask_to_width_eq, mask_to_width_eq, mask_to_width_eq]

theorem mul_bit_signed_eq (a b : Int) (w : Nat) (h1 : 1 ≤ w) :
    mul_bit a b w true =
      (sign_extend (mask_to_width a w) w * sign_extend (mask_to_width b w) w % 2 ^ (2 * w),
        ({} : Flags)) := by
  simp only [mul_bit, if_true]
  have hb := sign_extend_bounds (mask_to_width b w) w h1 (mask_to_width_nonneg b w)
    (mask_to_width_lt b w)
  have hp := two_pow_pred w h1
  have hpos : (0 : Int) < 2 ^ (w - 1) := by positivity
  have habs2 : |sign_extend (mask_to_width b w) w| < 2 ^ w := by
    rw [abs_lt]
    omega
  rw [shift_add_loop_eq_mul _ _ w (abs_nonneg _) habs2, sign_magnitude_mul, mask_to_width_eq]

theorem mul_booth_unsigned_eq (a b : Int) (w : Nat) :
    mul_booth a b w false = mul_sequential a b w false := by
  simp [mul_booth]

theorem mul_booth_signed_eq (a b : Int) (w : Nat) :
    mul_booth a b w true =
      (sign_extend (mask_to_width a w) w * sign_extend (mask_to_width b w) w % 2 ^ (2 * w),
        ({} : Flags)) := by
  simp [mul_booth, mask_to_width_eq]

theorem mul_bitpair_unsigned_eq (a b : Int) (w : Nat) :
    mul_bitpair a b w false = mul_sequential a b w false := by
  simp [mul_bitpair]

theorem mul_bitpair_signed_eq (a b : Int) (w : Nat) :
    mul_bitpair a b w true =
      (sign_extend (mask_to_width a w) w * sign_extend (mask_to_width b w) w % 2 ^ (2 * w),
        ({} : Flags)) := by
  simp [mul_bitpair, mask_to_width_eq]

/-! ### Embedded source: the dividers -/

/-- One iteration of the restoring-division loop (Python lines 240-254):
shift the pair (A, Q) left one bit with A absorbing the top bit of Q, both masked
to width; tentatively subtract the divisor from A; restore (`Q & ~1`) on a negative
tentative value, otherwise keep the subtraction and set the low quotient bit
(`Q | 1`).  Python `A << 1` is `A * 2`. -/
def div_loop_step (b : Int) (width : Nat) (AQ : Int × Int) : Int × Int :=
  let A := Int.land (Int.lor (AQ.1 * 2) (Int.land (AQ.2 >>> (width - 1)) 1)) (2 ^ width - 1)
  let Q := Int.land (AQ.2 * 2) (2 ^ width - 1)
  let temp_A := A - b
  if temp_A < 0 then
    (A, Int.land Q (Int.not 1))
  else
    (temp_A, Int.lor Q 1)

/-- Python `for i in range(width)` around the restoring step: iterate the step. -/
def div_loop (b : Int) (width : Nat) : Nat → Int × Int → Int × Int
  | 0, AQ => AQ
  | n + 1, AQ => div_loop b width n (div_loop_step b width AQ)

/-- Python source of `div_restoring` (lines 213-269).  The single failure
`raise ValueError("Division by zero")` is modelled as `none`. -/
def div_restoring (a b : Int) (width : Nat) (signed : Bool) : Option (Int × Int) :=
  if b = 0 then none
  else if signed then
    let a1 := sign_extend (mask_to_width a width) width
    let b1 := sign_extend (mask_to_width b width) width
    let result_negative := decide (a1 < 0) != decide (b1 < 0)
    let remainder_negative := decide (a1 < 0)
    let a2 := |a1|
    let b2 := |b1|
    let AQ := div_loop b2 width width (0, a2)
    let quotient := if result_negative then -AQ.2 else AQ.2
    let remainder := if remainder_negative then -AQ.1 else AQ.1
    some (mask_to_width quotient width, mask_to_width remainder width)
  else
    let a1 := mask_to_width a width
    let b1 := mask_to_width b width
    let AQ := div_loop b1 width width (0, a1)
    some (AQ.2, AQ.1)

/-- Python source of `div_nonrestoring` (lines 272-303): unsigned inputs delegate to
`div_restoring`; signed inputs take magnitudes and call the unsigned restoring
division, whose own zero-divisor check can re-raise — hence the `match`. -/
def div_nonrestoring (a b : Int) (width : Nat) (signed : Bool) : Option (Int × Int) :=
  if b = 0 then none
  else if !signed then div_restoring a b width signed
  else
    let a1 := sign_extend (mask_to_width a width) width
    let b1 := sign_extend (mask_to_width b width) width
    let result_negative := decide (a1 < 0) != decide (b1 < 0)
    let remainder_negative := decide (a1 < 0)
    let a2 := |a1|
    let b2 := |b1|
    match div_restoring a2 b2 width false with
    | none => none
    | some qr =>
      let q := if result_negative && qr.1 != 0 then mask_to_width (-qr.1) width else qr.1
      let r := if remainder_negative && qr.2 != 0 then mask_to_width (-qr.2) width else qr.2
      some (q, r)

/-! ### Divider loop analysis -/

theorem int_land_coe (m n : Nat) : Int.land (m : Int) (n : Int) = ((m &&& n : Nat) : Int) :=
  int_land_ofNat m n

theorem int_lor_coe (m n : Nat) : Int.lor (m : Int) (n : Int) = ((m ||| n : Nat) : Int) :=
  int_lor_ofNat m n

/-- One step of the loop on a state of natural numbers, reduced to arithmetic. -/
theorem div_loop_step_cast (nb w A Q : Nat) :
    div_loop_step (nb : Int) w ((A : Int), (Q : Int)) =
      (if (2 * A + Q / 2 ^ (w - 1) % 2) % 2 ^ w < nb
       then ((((2 * A + Q / 2 ^ (w - 1) % 2) % 2 ^ w : Nat) : Int), ((2 * Q % 2 ^ w : Nat) : Int))
       else ((((2 * A + Q / 2 ^ (w - 1) % 2) % 2 ^ w - nb : Nat) : Int),
             ((2 * Q % 2 ^ w + 1 : Nat) : Int))) := by
  have hsh : Int.land ((Q : Int) >>> (w - 1)) 1 = ((Q / 2 ^ (w - 1) % 2 : Nat) : Int) := by
    rw [int_shiftRight_eq_div, int_land_one]
    push_cast
    rfl
  have hmul : ((A : Int) * 2) = ((2 * A : Nat) : Int) := by
    push_cast
    ring
  have hlor : Int.lor ((2 * A : Nat) : Int) ((Q / 2 ^ (w - 1) % 2 : Nat) : Int)
      = ((2 * A + Q / 2 ^ (w - 1) % 2 : Nat) : Int) := by
    rw [int_lor_coe]
    rw [nat_two_mul_lor A (Q / 2 ^ (w - 1) % 2) (Nat.mod_lt _ two_pos)]
  have hA : Int.land ((2 * A + Q / 2 ^ (w - 1) % 2 : Nat) : Int) (2 ^ w - 1)
      = (((2 * A + Q / 2 ^ (w - 1) % 2) % 2 ^ w : Nat) : Int) := by
    rw [int_land_two_pow_sub_one]
    push_cast
    rfl
  have hmulQ : ((Q : Int) * 2) = ((2 * Q : Nat) : Int) := by
    push_cast
    ring
  have hQ : Int.land ((2 * Q : Nat) : Int) (2 ^ w - 1) = ((2 * Q % 2 ^ w : Nat) : Int) := by
    rw [int_land_two_pow_sub_one]
    push_cast
    rfl
  have heven : (2 * Q % 2 ^ w) % 2 = 0 := by
    rcases Nat.eq_zero_or_pos w with hw | hw
    · subst hw
      simp [Nat.mod_one]
    · have h2 : (2 : Nat) ∣ 2 ^ w := dvd_pow_self 2 (by omega)
      have h3 : (2 : Nat) ∣ 2 * Q % 2 ^ w := (Nat.dvd_mod_iff h2).mpr ⟨Q, rfl⟩
      omega
  simp only [div_loop_step, hsh, hmul, hlor, hA, hmulQ, hQ]
  rcases Nat.lt_or_ge ((2 * A + Q / 2 ^ (w - 1) % 2) % 2 ^ w) nb with h | h
  · rw [if_pos (by rw [sub_neg] ; exact_mod_cast h), if_pos h]
    have hnot : Int.land ((2 * Q % 2 ^ w : Nat) : Int) (Int.not 1) = ((2 * Q % 2 ^ w : Nat) : Int) :=
      int_land_not_one (2 * Q % 2 ^ w) heven
    rw [hnot]
  · rw [if_neg (by simp only [sub_neg, not_lt] ; exact_mod_cast h), if_neg (Nat.not_lt.mpr h)]
    have hsub : (((2 * A + Q / 2 ^ (w - 1) % 2) % 2 ^ w : Nat) : Int) - (nb : Int)
        = (((2 * A + Q / 2 ^ (w - 1) % 2) % 2 ^ w - nb : Nat) : Int) := by
      push_cast [h]
      ring
    have hor1 : Int.lor ((2 * Q % 2 ^ w : Nat) : Int) 1 = ((2 * Q % 2 ^ w + 1 : Nat) : Int) := by
      have hq2 : 2 * Q % 2 ^ w = 2 * (2 * Q % 2 ^ w / 2) := by omega
      rw [show ((1 : Int)) = ((1 : Nat) : Int) from rfl, int_lor_coe]
      rw [hq2, nat_two_mul_lor (2 * Q % 2 ^ w / 2) 1 (by omega)]
    rw [hsub, hor1]

theorem div_loop_succ (b : Int) (w n : Nat) (S : Int × Int) :
    div_loop b w (n + 1) S = div_loop_step b w (div_loop b w n S) := by
  induction n generalizing S with
  | zero => rfl
  | succ n ih =>
    show div_loop b w (n + 1) (div_loop_step b w S) = _
    rw [ih (div_loop_step b w S)]
    rfl

/-- The high part of the dividend consumed after `i` iterations is below `2 ^ i`. -/
theorem div_prefix_lt (na w i : Nat) (haw : na < 2 ^ w) (hiw : i ≤ w) :
    na / 2 ^ (w - i) < 2 ^ i := by
  rw [Nat.div_lt_iff_lt_mul (Nat.two_pow_pos _)]
  calc na < 2 ^ w := haw
    _ ≤ 2 ^ i * 2 ^ (w - i) := le_of_eq (by rw [← pow_add] ; congr 1 ; omega)

/-- The dividend prefix grows by one bit per iteration. -/
theorem div_step_decomp (na w i : Nat) (hiw : i < w) :
    na / 2 ^ (w - (i + 1)) = 2 * (na / 2 ^ (w - i)) + na / 2 ^ (w - (i + 1)) % 2 := by
  have hsplit : 2 ^ (w - i) = 2 ^ (w - (i + 1)) * 2 := by
    rw [show w - i = (w - (i + 1)) + 1 by omega, pow_succ]
  have hP : na / 2 ^ (w - i) = na / 2 ^ (w - (i + 1)) / 2 := by
    rw [hsplit, ← Nat.div_div_eq_div_mul]
  omega

/-- The top bit of the quotient register is the next dividend bit. -/
theorem div_step_bit (na w i qp : Nat) (haw : na < 2 ^ w) (hiw : i < w) (hqp : qp < 2 ^ i) :
    (na % 2 ^ (w - i) * 2 ^ i + qp) / 2 ^ (w - 1) % 2 = na / 2 ^ (w - (i + 1)) % 2 := by
  have hQi : (na % 2 ^ (w - i) * 2 ^ i + qp) / 2 ^ i = na % 2 ^ (w - i) := by
    rw [add_comm, Nat.add_mul_div_right _ _ (Nat.two_pow_pos i), Nat.div_eq_of_lt hqp]
    omega
  have hw1 : (2 : Nat) ^ (w - 1) = 2 ^ i * 2 ^ (w - 1 - i) := by
    rw [← pow_add]
    congr 1
    omega
  have hQ2 : (na % 2 ^ (w - i) * 2 ^ i + qp) / 2 ^ (w - 1)
      = na % 2 ^ (w - i) / 2 ^ (w - 1 - i) := by
    rw [hw1, ← Nat.div_div_eq_div_mul, hQi]
  have hc_div : na % 2 ^ (w - i) / 2 ^ (w - 1 - i) = na / 2 ^ (w - (i + 1)) % 2 := by
    have h1 : w - 1 - i = w - (i + 1) := by omega
    have hsplit : 2 ^ (w - i) = 2 * 2 ^ (w - (i + 1)) := by
      rw [show w - i = (w - (i + 1)) + 1 by omega, pow_succ]
      ring
    rw [h1, hsplit]
    exact Nat.mod_mul_left_div_self na (2 ^ (w - (i + 1))) 2
  rw [hQ2, hc_div]
  omega

/-- The shifted accumulator stays below `2 ^ w`, so its masking is the identity. -/
theorem div_step_A (na w i A : Nat) (haw : na < 2 ^ w) (hiw : i < w)
    (hA : A ≤ na / 2 ^ (w - i)) :
    (2 * A + na / 2 ^ (w - (i + 1)) % 2) % 2 ^ w = 2 * A + na / 2 ^ (w - (i + 1)) % 2 := by
  apply Nat.mod_eq_of_lt
  have hP_lt : na / 2 ^ (w - i) < 2 ^ i := div_prefix_lt na w i haw (by omega)
  have hbit : na / 2 ^ (w - (i + 1)) % 2 < 2 := Nat.mod_lt _ two_pos
  have hpow : 2 ^ (i + 1) ≤ 2 ^ w := Nat.pow_le_pow_right (by omega) (by omega)
  have hp1 : (2 : Nat) ^ (i + 1) = 2 * 2 ^ i := by
    rw [pow_succ]
    ring
  omega

/-- The shifted quotient register: the top dividend bit overflows out of the mask. -/
theorem div_step_Q (na w i qp : Nat) (haw : na < 2 ^ w) (hiw : i < w) (hqp : qp < 2 ^ i) :
    2 * (na % 2 ^ (w - i) * 2 ^ i + qp) % 2 ^ w
      = na % 2 ^ (w - (i + 1)) * 2 ^ (i + 1) + 2 * qp := by
  have hcsplit : na % 2 ^ (w - i)
      = na % 2 ^ (w - (i + 1)) + 2 ^ (w - (i + 1)) * (na / 2 ^ (w - (i + 1)) % 2) := by
    rw [show w - i = (w - (i + 1)) + 1 by omega]
    exact Nat.mod_pow_succ
  have hc_lt : na % 2 ^ (w - (i + 1)) < 2 ^ (w - (i + 1)) := Nat.mod_lt _ (Nat.two_pow_pos _)
  have hpoww : (2 : Nat) ^ (w - (i + 1)) * 2 ^ (i + 1) = 2 ^ w := by
    rw [← pow_add]
    congr 1
    omega
  have hpow1 : (2 : Nat) ^ (i + 1) = 2 ^ i * 2 := pow_succ 2 i
  have h2Q : 2 * (na % 2 ^ (w - i) * 2 ^ i + qp)
      = (na % 2 ^ (w - (i + 1)) * 2 ^ (i + 1) + 2 * qp)
        + (na / 2 ^ (w - (i + 1)) % 2) * 2 ^ w := by
    rw [hcsplit, ← hpoww, hpow1]
    ring
  rw [h2Q, Nat.add_mul_mod_self_right]
  apply Nat.mod_eq_of_lt
  have hb1 : na % 2 ^ (w - (i + 1)) * 2 ^ (i + 1) ≤ (2 ^ (w - (i + 1)) - 1) * 2 ^ (i + 1) :=
    Nat.mul_le_mul_right _ (by omega)
  have hb2 : ((2 : Nat) ^ (w - (i + 1)) - 1) * 2 ^ (i + 1) = 2 ^ w - 2 ^ (i + 1) := by
    rw [Nat.sub_mul, one_mul, hpoww]
  have hb3 : (2 : Nat) ^ (i + 1) ≤ 2 ^ w := Nat.pow_le_pow_right (by omega) (by omega)
  have hp1 : (2 : Nat) ^ (i + 1) = 2 * 2 ^ i := by
    rw [pow_succ]
    ring
  omega

/-- Invariant of the restoring-division loop for a nonzero (masked) divisor: after
`i` of the `w` iterations the accumulator holds the running remainder of the top
`i` dividend bits and the quotient register holds the remaining dividend bits
beside the running quotient. -/
theorem div_loop_invariant (na nb w : Nat) (hb1 : 1 ≤ nb) (haw : na < 2 ^ w) :
    ∀ i, i ≤ w → div_loop (nb : Int) w i (0, (na : Int)) =
      (((na / 2 ^ (w - i) % nb : Nat) : Int),
       ((na % 2 ^ (w - i) * 2 ^ i + na / 2 ^ (w - i) / nb : Nat) : Int)) := by
  intro i
  induction i with
  | zero =>
    intro _
    have h1 : na / 2 ^ (w - 0) = 0 := Nat.div_eq_of_lt (by simpa using haw)
    have h2 : na % 2 ^ (w - 0) = na := Nat.mod_eq_of_lt (by simpa using haw)
    show (0, (na : Int)) = _
    rw [h1, h2]
    norm_num
  | succ i ih =>
    intro hi
    have hiw : i < w := hi
    have hP_lt : na / 2 ^ (w - i) < 2 ^ i := div_prefix_lt na w i haw (by omega)
    have hqp_lt : na / 2 ^ (w - i) / nb < 2 ^ i :=
      lt_of_le_of_lt (Nat.div_le_self _ _) hP_lt
    have hA_le : na / 2 ^ (w - i) % nb ≤ na / 2 ^ (w - i) := Nat.mod_le _ _
    rw [div_loop_succ, ih (by omega), div_loop_step_cast,
      div_step_bit na w i (na / 2 ^ (w - i) / nb) haw hiw hqp_lt,
      div_step_A na w i (na / 2 ^ (w - i) % nb) haw hiw hA_le,
      div_step_Q na w i (na / 2 ^ (w - i) / nb) haw hiw hqp_lt]
    have hdm := Nat.div_add_mod (na / 2 ^ (w - i)) nb
    have hdec := div_step_decomp na w i hiw
    have hbit2 : na / 2 ^ (w - (i + 1)) % 2 < 2 := Nat.mod_lt _ two_pos
    have hA_lt : na / 2 ^ (w - i) % nb < nb := Nat.mod_lt _ (by omega)
    rcases Nat.lt_or_ge (2 * (na / 2 ^ (w - i) % nb) + na / 2 ^ (w - (i + 1)) % 2) nb
      with h | h
    · rw [if_pos h]
      have huniq := (Nat.div_mod_unique (show 0 < nb by omega)).mpr
        (show (2 * (na / 2 ^ (w - i) % nb) + na / 2 ^ (w - (i + 1)) % 2)
            + nb * (2 * (na / 2 ^ (w - i) / nb)) = na / 2 ^ (w - (i + 1)) ∧
            2 * (na / 2 ^ (w - i) % nb) + na / 2 ^ (w - (i + 1)) % 2 < nb from by
          constructor
          · rw [show nb * (2 * (na / 2 ^ (w - i) / nb))
                = 2 * (nb * (na / 2 ^ (w - i) / nb)) by ring]
            omega
          · exact h)
      rw [huniq.1, huniq.2]
    · rw [if_neg (Nat.not_lt.mpr h)]
      have huniq := (Nat.div_mod_unique (show 0 < nb by omega)).mpr
        (show (2 * (na / 2 ^ (w - i) % nb) + na / 2 ^ (w - (i + 1)) % 2 - nb)
            + nb * (2 * (na / 2 ^ (w - i) / nb) + 1) = na / 2 ^ (w - (i + 1)) ∧
            2 * (na / 2 ^ (w - i) % nb) + na / 2 ^ (w - (i + 1)) % 2 - nb < nb from by
          constructor
          · rw [show nb * (2 * (na / 2 ^ (w - i) / nb) + 1)
                = 2 * (nb * (na / 2 ^ (w - i) / nb)) + nb by ring]
            omega
          · omega)
      rw [huniq.1, huniq.2, add_assoc]

/-- Invariant of the loop for a masked divisor of zero: the tentative subtraction
always succeeds, so the quotient register fills with ones and the accumulator
reassembles the dividend. -/
theorem div_loop_invariant_zero (na w : Nat) (haw : na < 2 ^ w) :
    ∀ i, i ≤ w → div_loop ((0 : Nat) : Int) w i (0, (na : Int)) =
      (((na / 2 ^ (w - i) : Nat) : Int),
       ((na % 2 ^ (w - i) * 2 ^ i + (2 ^ i - 1) : Nat) : Int)) := by
  intro i
  induction i with
  | zero =>
    intro _
    have h1 : na / 2 ^ (w - 0) = 0 := Nat.div_eq_of_lt (by simpa using haw)
    have h2 : na % 2 ^ (w - 0) = na := Nat.mod_eq_of_lt (by simpa using haw)
    show (0, (na : Int)) = _
    rw [h1, h2]
    norm_num
  | succ i ih =>
    intro hi
    have hiw : i < w := hi
    have hqp_lt : (2 : Nat) ^ i - 1 < 2 ^ i := by
      have := Nat.two_pow_pos i
      omega
    have hA_le : na / 2 ^ (w - i) ≤ na / 2 ^ (w - i) := le_refl _
    rw [div_loop_succ, ih (by omega), div_loop_step_cast,
      div_step_bit na w i (2 ^ i - 1) haw hiw hqp_lt,
      div_step_A na w i (na / 2 ^ (w - i)) haw hiw hA_le,
      div_step_Q na w i (2 ^ i - 1) haw hiw hqp_lt]
    rw [if_neg (Nat.not_lt.mpr (Nat.zero_le _))]
    have hdec := div_step_decomp na w i hiw
    have hpow1 : (2 : Nat) ^ (i + 1) = 2 * 2 ^ i := by
      rw [pow_succ]
      ring
    have hpos : (0 : Nat) < 2 ^ i := Nat.two_pow_pos i
    have e1 : 2 * (na / 2 ^ (w - i)) + na / 2 ^ (w - (i + 1)) % 2 - 0
        = na / 2 ^ (w - (i + 1)) := by omega
    have e2 : na % 2 ^ (w - (i + 1)) * 2 ^ (i + 1) + 2 * (2 ^ i - 1) + 1
        = na % 2 ^ (w - (i + 1)) * 2 ^ (i + 1) + (2 ^ (i + 1) - 1) := by omega
    rw [e1, e2]

/-- After all `w` iterations the loop delivers euclidean remainder and quotient. -/
theorem div_loop_final (na nb w : Nat) (hb1 : 1 ≤ nb) (haw : na < 2 ^ w) :
    div_loop (nb : Int) w w (0, (na : Int))
      = (((na % nb : Nat) : Int), ((na / nb : Nat) : Int)) := by
  have h := div_loop_invariant na nb w hb1 haw w (le_refl w)
  rw [h, Nat.sub_self, pow_zero, Nat.div_one, Nat.mod_one]
  norm_num

/-- After all `w` iterations with divisor zero: all-ones quotient, dividend remainder. -/
theorem div_loop_final_zero (na w : Nat) (haw : na < 2 ^ w) :
    div_loop (0 : Int) w w (0, (na : Int))
      = ((na : Int), ((2 ^ w - 1 : Nat) : Int)) := by
  have h := div_loop_invariant_zero na w haw w (le_refl w)
  rw [show (((0 : Nat) : Int)) = (0 : Int) from rfl] at h
  rw [h, Nat.sub_self, pow_zero, Nat.div_one, Nat.mod_one]
  norm_num

/-- Unsigned restoring division computes euclidean division on the masked operands. -/
theorem div_restoring_unsigned_eq (a b : Int) (w : Nat) (hb : b ≠ 0)
    (hbm : mask_to_width b w ≠ 0) :
    div_restoring a b w false
      = some (mask_to_width a w / mask_to_width b w,
              mask_to_width a w % mask_to_width b w) := by
  obtain ⟨na, hna⟩ := Int.eq_ofNat_of_zero_le (mask_to_width_nonneg a w)
  obtain ⟨nb, hnb⟩ := Int.eq_ofNat_of_zero_le (mask_to_width_nonneg b w)
  have hnaw : na < 2 ^ w := by
    have := mask_to_width_lt a w
    rw [hna] at this
    exact_mod_cast this
  have hnb1 : 1 ≤ nb := by
    rcases Nat.eq_zero_or_pos nb with h0 | h0
    · exfalso
      apply hbm
      rw [hnb, h0]
      rfl
    · exact h0
  simp only [div_restoring, if_neg hb, Bool.false_eq_true, if_false, hna, hnb]
  rw [div_loop_final na nb w hnb1 hnaw]
  have hdiv : ((na / nb : Nat) : Int) = (na : Int) / (nb : Int) := by push_cast ; rfl
  have hmod : ((na % nb : Nat) : Int) = (na : Int) % (nb : Int) := by push_cast ; rfl
  rw [hdiv, hmod]

/-- Unsigned restoring division with a masked-to-zero (but raw nonzero) divisor. -/
theorem div_restoring_unsigned_zero_eq (a b : Int) (w : Nat) (hb : b ≠ 0)
    (hbm : mask_to_width b w = 0) :
    div_restoring a b w false = some (((2 ^ w - 1 : Nat) : Int), mask_to_width a w) := by
  obtain ⟨na, hna⟩ := Int.eq_ofNat_of_zero_le (mask_to_width_nonneg a w)
  have hnaw : na < 2 ^ w := by
    have := mask_to_width_lt a w
    rw [hna] at this
    exact_mod_cast this
  simp only [div_restoring, if_neg hb, Bool.false_eq_true, if_false, hna, hbm]
  rw [div_loop_final_zero na w hnaw]

/-- The unsigned non-restoring entry point delegates to restoring division. -/
theorem div_nonrestoring_unsigned_eq (a b : Int) (w : Nat) :
    div_nonrestoring a b w false = div_restoring a b w false := by
  by_cases hb : b = 0
  · simp [div_nonrestoring, div_restoring, hb]
  · simp [div_nonrestoring, hb]

/-- Signed restoring division with a nonzero sign-extended divisor: euclidean
division of the magnitudes with signs reapplied, then masked. -/
theorem div_restoring_signed_eq (a b : Int) (w : Nat) (h1 : 1 ≤ w) (hb : b ≠ 0)
    (hbm : sign_extend (mask_to_width b w) w ≠ 0) :
    div_restoring a b w true = some
      (mask_to_width
        (if decide (sign_extend (mask_to_width a w) w < 0)
            != decide (sign_extend (mask_to_width b w) w < 0)
         then -(|sign_extend (mask_to_width a w) w| / |sign_extend (mask_to_width b w) w|)
         else |sign_extend (mask_to_width a w) w| / |sign_extend (mask_to_width b w) w|) w,
       mask_to_width
        (if decide (sign_extend (mask_to_width a w) w < 0)
         then -(|sign_extend (mask_to_width a w) w| % |sign_extend (mask_to_width b w) w|)
         else |sign_extend (mask_to_width a w) w| % |sign_extend (mask_to_width b w) w|) w) := by
  obtain ⟨na, hna⟩ := Int.eq_ofNat_of_zero_le (abs_nonneg (sign_extend (mask_to_width a w) w))
  obtain ⟨nb, hnb⟩ := Int.eq_ofNat_of_zero_le (abs_nonneg (sign_extend (mask_to_width b w) w))
  have hpp := two_pow_pred w h1
  have hppos : (0 : Int) < 2 ^ (w - 1) := by positivity
  have hba := sign_extend_bounds (mask_to_width a w) w h1 (mask_to_width_nonneg a w)
    (mask_to_width_lt a w)
  have hbb := sign_extend_bounds (mask_to_width b w) w h1 (mask_to_width_nonneg b w)
    (mask_to_width_lt b w)
  have hnaw : na < 2 ^ w := by
    have habs : |sign_extend (mask_to_width a w) w| < 2 ^ w := by
      rw [abs_lt]
      omega
    rw [hna] at habs
    exact_mod_cast habs
  have hnb1 : 1 ≤ nb := by
    have habs : 0 < |sign_extend (mask_to_width b w) w| := abs_pos.mpr hbm
    rw [hnb] at habs
    exact_mod_cast habs
  simp only [div_restoring, if_neg hb, if_true, hna, hnb]
  rw [div_loop_final na nb w hnb1 hnaw]
  have hdiv : ((na / nb : Nat) : Int) = (na : Int) / (nb : Int) := by push_cast ; rfl
  have hmod : ((na % nb : Nat) : Int) = (na : Int) % (nb : Int) := by push_cast ; rfl
  rw [hdiv, hmod]

/-- Signed restoring division with a raw-nonzero divisor masking to zero: the inner
loop fills the quotient with ones and returns the dividend magnitude, whose sign
correction reproduces the signed dividend. -/
theorem div_restoring_signed_zero_eq (a b : Int) (w : Nat) (h1 : 1 ≤ w) (hb : b ≠ 0)
    (hbm : sign_extend (mask_to_width b w) w = 0) :
    div_restoring a b w true = some
      (mask_to_width
        (if decide (sign_extend (mask_to_width a w) w < 0)
         then -((2 ^ w - 1 : Nat) : Int) else ((2 ^ w - 1 : Nat) : Int)) w,
       mask_to_width (sign_extend (mask_to_width a w) w) w) := by
  obtain ⟨na, hna⟩ := Int.eq_ofNat_of_zero_le (abs_nonneg (sign_extend (mask_to_width a w) w))
  have hpp := two_pow_pred w h1
  have hppos : (0 : Int) < 2 ^ (w - 1) := by positivity
  have hba := sign_extend_bounds (mask_to_width a w) w h1 (mask_to_width_nonneg a w)
    (mask_to_width_lt a w)
  have hnaw : na < 2 ^ w := by
    have habs : |sign_extend (mask_to_width a w) w| < 2 ^ w := by
      rw [abs_lt]
      omega
    rw [hna] at habs
    exact_mod_cast habs
  simp only [div_restoring, if_neg hb, if_true, hbm, abs_zero, hna]
  rw [div_loop_final_zero na w hnaw]
  have hrem : (if decide (sign_extend (mask_to_width a w) w < 0) = true
      then -((na : Nat) : Int) else ((na : Nat) : Int))
      = sign_extend (mask_to_width a w) w := by
    rcases lt_or_ge (sign_extend (mask_to_width a w) w) 0 with hneg | hpos
    · rw [if_pos (by simpa using hneg), ← hna, abs_of_neg hneg]
      ring
    · rw [if_neg (by simpa using not_lt_of_ge hpos), ← hna, abs_of_nonneg hpos]
  have hq : decide ((0 : Int) < 0) = false := by decide
  simp only [hq, Bool.bne_false]
  rw [hrem]

/-- Signed non-restoring division with a raw-nonzero divisor masking to zero fails:
the inner unsigned call re-checks the reduced divisor. -/
theorem div_nonrestoring_signed_zero (a b : Int) (w : Nat) (hb : b ≠ 0)
    (hbm : sign_extend (mask_to_width b w) w = 0) :
    div_nonrestoring a b w true = none := by
  simp [div_nonrestoring, if_neg hb, hbm, div_restoring]

/-- With a nonzero sign-extended divisor the two signed dividers agree. -/
theorem div_nonrestoring_signed_eq (a b : Int) (w : Nat) (h1 : 1 ≤ w) (hb : b ≠ 0)
    (hbm : sign_extend (mask_to_width b w) w ≠ 0) :
    div_nonrestoring a b w true = div_restoring a b w true := by
  obtain ⟨na, hna⟩ := Int.eq_ofNat_of_zero_le (abs_nonneg (sign_extend (mask_to_width a w) w))
  obtain ⟨nb, hnb⟩ := Int.eq_ofNat_of_zero_le (abs_nonneg (sign_extend (mask_to_width b w) w))
  have hpp := two_pow_pred w h1
  have hppos : (0 : Int) < 2 ^ (w - 1) := by positivity
  have hba := sign_extend_bounds (mask_to_width a w) w h1 (mask_to_width_nonneg a w)
    (mask_to_width_lt a w)
  have hbb := sign_extend_bounds (mask_to_width b w) w h1 (mask_to_width_nonneg b w)
    (mask_to_width_lt b w)
  have hnaw : na < 2 ^ w := by
    have habs : |sign_extend (mask_to_width a w) w| < 2 ^ w := by
      rw [abs_lt]
      omega
    rw [hna] at habs
    exact_mod_cast habs
  have hnbw : nb < 2 ^ w := by
    have habs : |sign_extend (mask_to_width b w) w| < 2 ^ w := by
      rw [abs_lt]
      omega
    rw [hnb] at habs
    exact_mod_cast habs
  have hnb1 : 1 ≤ nb := by
    have habs : 0 < |sign_extend (mask_to_width b w) w| := abs_pos.mpr hbm
    rw [hnb] at habs
    exact_mod_cast habs
  have hnbz : ((nb : Nat) : Int) ≠ 0 := by
    simp only [ne_eq, Int.natCast_eq_zero]
    omega
  have hmaska : mask_to_width ((na : Nat) : Int) w = ((na : Nat) : Int) := by
    rw [mask_to_width_eq]
    apply Int.emod_eq_of_lt (by positivity)
    exact_mod_cast hnaw
  have hmaskb : mask_to_width ((nb : Nat) : Int) w = ((nb : Nat) : Int) := by
    rw [mask_to_width_eq]
    apply Int.emod_eq_of_lt (by positivity)
    exact_mod_cast hnbw
  have hinner : div_restoring ((na : Nat) : Int) ((nb : Nat) : Int) w false
      = some (((na / nb : Nat) : Int), ((na % nb : Nat) : Int)) := by
    rw [div_restoring_unsigned_eq _ _ w hnbz (by rw [hmaskb] ; exact hnbz), hmaska, hmaskb]
    have hdiv : ((na / nb : Nat) : Int) = (na : Int) / (nb : Int) := by push_cast ; rfl
    have hmod : ((na % nb : Nat) : Int) = (na : Int) % (nb : Int) := by push_cast ; rfl
    rw [hdiv, hmod]
  rw [div_restoring_signed_eq a b w h1 hb hbm]
  simp only [div_nonrestoring, if_neg hb, Bool.not_true, Bool.false_eq_true, if_false, hna, hnb,
    hinner]
  have hqd : ((na / nb : Nat) : Int) = (na : Int) / (nb : Int) := by push_cast ; rfl
  have hrd : ((na % nb : Nat) : Int) = (na : Int) % (nb : Int) := by push_cast ; rfl
  have hqlt : ((na / nb : Nat) : Int) < 2 ^ w := by
    have : na / nb < 2 ^ w := lt_of_le_of_lt (Nat.div_le_self na nb) hnaw
    exact_mod_cast this
  have hrlt : ((na % nb : Nat) : Int) < 2 ^ w := by
    have : na % nb < 2 ^ w := lt_of_le_of_lt (Nat.mod_le na nb) hnaw
    exact_mod_cast this
  have hq0 : (0 : Int) ≤ ((na / nb : Nat) : Int) := by positivity
  have hr0 : (0 : Int) ≤ ((na % nb : Nat) : Int) := by positivity
  have hmq : mask_to_width ((na / nb : Nat) : Int) w = ((na / nb : Nat) : Int) := by
    rw [mask_to_width_eq]
    exact Int.emod_eq_of_lt hq0 hqlt
  have hmr : mask_to_width ((na % nb : Nat) : Int) w = ((na % nb : Nat) : Int) := by
    rw [mask_to_width_eq]
    exact Int.emod_eq_of_lt hr0 hrlt
  have hmz0 : mask_to_width (0 : Int) w = 0 := by
    rw [mask_to_width_eq]
    norm_num
  rw [← hqd, ← hrd]
  congr 1
  rw [Prod.mk.injEq]
  constructor
  · rcases hrn : decide (sign_extend (mask_to_width a w) w < 0)
        != decide (sign_extend (mask_to_width b w) w < 0) with _ | _
    · simp only [Bool.false_and, Bool.false_eq_true, if_false, hmq]
    · by_cases hq : ((na / nb : Nat) : Int) = 0
      · simp [hq, hmz0]
      · simp [hq, hmq]
        intro hc
        rw [← hqd] at hc
        exact absurd hc hq
  · rcases hrneg : decide (sign_extend (mask_to_width a w) w < 0) with _ | _
    · simp only [Bool.false_and, Bool.false_eq_true, if_false, hmr]
    · by_cases hr : ((na % nb : Nat) : Int) = 0
      · simp [hr, hmz0]
      · simp [hr, hmr]
        intro hc
        have hc2 : (na : Int) % (nb : Int) = 0 := Int.emod_eq_zero_of_dvd hc
        rw [← hrd] at hc2
        exact absurd hc2 hr

/-! ### Claim theorems -/

/-- C8: for every integer value (including negative values) and every width,
`mask_to_width` computes the true mathematical modulo `value mod 2 ^ width`: it
coincides with euclidean remainder and its result is always in `[0, 2 ^ width)`,
never the truncation-toward-zero remainder (which can be negative). -/
theorem C8_mask_to_width_true_modulo (value : Int) (width : Nat) :
    mask_to_width value width = value % 2 ^ width ∧
    0 ≤ mask_to_width value width ∧ mask_to_width value width < 2 ^ width :=
  ⟨mask_to_width_eq value width, mask_to_width_nonneg value width, mask_to_width_lt value width⟩

/-- C7: round-trip law: for every width `w ≥ 1` and raw value `r` in `[0, 2 ^ w)`,
`mask_to_width (sign_extend r w) w = r`. -/
theorem C7_round_trip (w : Nat) (r : Int) (h1 : 1 ≤ w) (h0 : 0 ≤ r) (h2 : r < 2 ^ w) :
    mask_to_width (sign_extend r w) w = r := by
  rw [mask_to_width_eq, sign_extend_emod r w h0 h2]
  exact Int.emod_eq_of_lt h0 h2

theorem C7_round_trip_witness :
    ((1 : Nat) ≤ 8 ∧ (0 : Int) ≤ 200 ∧ (200 : Int) < 2 ^ 8) ∧
      mask_to_width (sign_extend 200 8) 8 = 200 :=
  ⟨⟨by norm_num, by norm_num, by norm_num⟩,
    C7_round_trip 8 200 (by norm_num) (by norm_num) (by norm_num)⟩

/-- C3: `add` returns the unbounded sum of the masked operands reduced mod `2 ^ w`;
unsigned flags carry bit `w` of the unbounded sum, signed flags carry the overflow
predicate computed from bit `w - 1` of the masked operands and result.  The Python
carry flag is the int `0`/`1`; Python equates `True` with `1`, so the stated
`{carry_out: true}` for `add 200 100` is the stored value `1`. -/
theorem C3_add_semantics (a b : Int) (w : Nat) (h1 : 1 ≤ w) :
    (add a b w false).1 = (mask_to_width a w + mask_to_width b w) % 2 ^ w ∧
    (add a b w true).1 = (mask_to_width a w + mask_to_width b w) % 2 ^ w ∧
    (add a b w false).2.carry_out
      = some ((mask_to_width a w + mask_to_width b w) / 2 ^ w % 2) ∧
    (add a b w true).2.overflow
      = some ((mask_to_width a w / 2 ^ (w - 1) % 2 == mask_to_width b w / 2 ^ (w - 1) % 2)
          && (mask_to_width a w / 2 ^ (w - 1) % 2 != (add a b w true).1 / 2 ^ (w - 1) % 2)) ∧
    add 200 100 8 false = (44, { carry_out := some 1 }) ∧
    add 100 50 8 false = (150, { carry_out := some 0 }) := by
  refine ⟨?_, ?_, ?_, ?_, by decide, by decide⟩ <;>
    simp [add_unsigned_eq, add_signed_eq, mask_to_width_eq]

theorem C3_add_semantics_witness :
    ((1 : Nat) ≤ 8) ∧
    ((add 7 9 8 false).1 = (mask_to_width 7 8 + mask_to_width 9 8) % 2 ^ 8 ∧
     (add 7 9 8 true).1 = (mask_to_width 7 8 + mask_to_width 9 8) % 2 ^ 8 ∧
     (add 7 9 8 false).2.carry_out
       = some ((mask_to_width 7 8 + mask_to_width 9 8) / 2 ^ 8 % 2) ∧
     (add 7 9 8 true).2.overflow
       = some ((mask_to_width 7 8 / 2 ^ (8 - 1) % 2 == mask_to_width 9 8 / 2 ^ (8 - 1) % 2)
           && (mask_to_width 7 8 / 2 ^ (8 - 1) % 2 != (add 7 9 8 true).1 / 2 ^ (8 - 1) % 2)) ∧
     add 200 100 8 false = (44, { carry_out := some 1 }) ∧
     add 100 50 8 false = (150, { carry_out := some 0 })) :=
  ⟨by norm_num, C3_add_semantics 7 9 8 (by norm_num)⟩

/-- C4 counterexample: the claim says the unsigned path of both `add` and `sub`
emits the flag `carry_out`; but unsigned `sub` stores no `carry_out` at all — its
single flag is `borrow`. -/
theorem C4_counterexample :
    (sub 0 0 1 false).2.carry_out = none ∧ (sub 0 0 1 false).2.borrow = some true := by
  rw [sub_unfold]
  norm_num [add_unsigned_eq]

/-- C4 amended: each call of `add` and `sub` returns exactly one flag — `add`
returns `carry_out` (unsigned) or `overflow` (signed), while `sub` returns
`borrow` (unsigned) or `overflow` (signed); never both and never any other flag. -/
theorem C4_exactly_one_flag (a b : Int) (w : Nat) :
    ((add a b w false).2.carry_out.isSome = true ∧ (add a b w false).2.overflow = none ∧
      (add a b w false).2.borrow = none) ∧
    ((add a b w true).2.overflow.isSome = true ∧ (add a b w true).2.carry_out = none ∧
      (add a b w true).2.borrow = none) ∧
    ((sub a b w false).2.borrow.isSome = true ∧ (sub a b w false).2.carry_out = none ∧
      (sub a b w false).2.overflow = none) ∧
    ((sub a b w true).2.overflow.isSome = true ∧ (sub a b w true).2.carry_out = none ∧
      (sub a b w true).2.borrow = none) := by
  refine ⟨?_, ?_, ?_, ?_⟩ <;> simp [add, sub]

/-- Negation commutes with reduction before reduction mod `2 ^ w`. -/
theorem neg_emod_congr (x : Int) (w : Nat) : (-(x % 2 ^ w)) % 2 ^ w = (-x) % 2 ^ w := by
  conv_rhs => rw [show -x = 0 - x by ring]
  rw [Int.sub_emod]
  norm_num

/-- `add` depends on its operands only through their residues mod `2 ^ w`. -/
theorem add_congr (a a2 b b2 : Int) (w : Nat) (s : Bool)
    (ha : a % 2 ^ w = a2 % 2 ^ w) (hb : b % 2 ^ w = b2 % 2 ^ w) :
    add a b w s = add a2 b2 w s := by
  cases s
  · rw [add_unsigned_eq, add_unsigned_eq, ha, hb]
  · rw [add_signed_eq, add_signed_eq, ha, hb]

/-- C5: `sub a b` returns the same result value as `add a (twos_complement b)` with
`twos_complement b = mask_to_width (bitwise-complement b + 1) w`; the unsigned
borrow flag is the negation of that addition's carry (true exactly when the stored
carry int is zero), the signed overflow flag passes through unchanged; and
`sub (-128) 1 8 true` reports overflow. -/
theorem C5_sub_is_add_twos_complement (a b : Int) (w : Nat) (h1 : 1 ≤ w) :
    (sub a b w false).1 = (add a (mask_to_width (Int.not b + 1) w) w false).1 ∧
    (sub a b w true).1 = (add a (mask_to_width (Int.not b + 1) w) w true).1 ∧
    (sub a b w false).2.borrow
      = some ((add a (mask_to_width (Int.not b + 1) w) w false).2.carry_out.getD 0 == 0) ∧
    (sub a b w true).2.overflow
      = (add a (mask_to_width (Int.not b + 1) w) w true).2.overflow ∧
    (sub (-128) 1 8 true).2.overflow = some true := by
  have hkey : ∀ s : Bool,
      add (mask_to_width a w) (mask_to_width (Int.not (mask_to_width b w) + 1) w) w s
        = add a (mask_to_width (Int.not b + 1) w) w s := by
    intro s
    apply add_congr
    · rw [mask_to_width_eq]
      exact Int.emod_emod_of_dvd a dvd_rfl
    · rw [mask_to_width_eq, mask_to_width_eq, mask_to_width_eq, int_not_eq, int_not_eq]
      rw [show -(b % 2 ^ w) - 1 + 1 = -(b % 2 ^ w) by ring, show -b - 1 + 1 = -b by ring]
      rw [Int.emod_emod_of_dvd _ dvd_rfl, Int.emod_emod_of_dvd _ dvd_rfl]
      exact neg_emod_congr b w
  refine ⟨?_, ?_, ?_, ?_, ?_⟩
  · show (sub a b w false).1 = _
    simp only [sub, Bool.false_eq_true, if_false, hkey false]
  · show (sub a b w true).1 = _
    simp only [sub, if_true, hkey true]
  · simp only [sub, Bool.false_eq_true, if_false, hkey false]
  · simp only [sub, if_true, hkey true]
    rw [add_signed_eq]
    simp
  · rw [sub_unfold]
    norm_num [add_signed_eq]

theorem C5_sub_is_add_twos_complement_witness :
    ((1 : Nat) ≤ 8) ∧
    ((sub 3 12 8 false).1 = (add 3 (mask_to_width (Int.not 12 + 1) 8) 8 false).1 ∧
     (sub 3 12 8 true).1 = (add 3 (mask_to_width (Int.not 12 + 1) 8) 8 true).1 ∧
     (sub 3 12 8 false).2.borrow
       = some ((add 3 (mask_to_width (Int.not 12 + 1) 8) 8 false).2.carry_out.getD 0 == 0) ∧
     (sub 3 12 8 true).2.overflow
       = (add 3 (mask_to_width (Int.not 12 + 1) 8) 8 true).2.overflow ∧
     (sub (-128) 1 8 true).2.overflow = some true) :=
  ⟨by norm_num, C5_sub_is_add_twos_complement 3 12 8 (by norm_num)⟩

/-- C9: `arithmetic_right_shift` is the identity at shift 0; with a clear sign bit
it is the plain logical right shift; with a set sign bit it is the right shift with
the top `shift` bits filled with ones, clipped to `width` bits; at `shift = width`
with the sign bit set it yields the all-ones value. -/
theorem C9_arithmetic_right_shift (w shift : Nat) (raw : Int) (h1 : 1 ≤ w)
    (h0 : 0 ≤ raw) (h2 : raw < 2 ^ w) (hs : shift ≤ w) :
    arithmetic_right_shift raw 0 w = raw ∧
    (raw / 2 ^ (w - 1) % 2 = 0 → arithmetic_right_shift raw shift w = raw / 2 ^ shift) ∧
    (raw / 2 ^ (w - 1) % 2 = 1 →
      arithmetic_right_shift raw shift w
        = (raw / 2 ^ shift + (2 ^ shift - 1) * 2 ^ (w - shift)) % 2 ^ w) ∧
    (raw / 2 ^ (w - 1) % 2 = 1 ∧ shift = w →
      arithmetic_right_shift raw shift w = 2 ^ w - 1) := by
  obtain ⟨n, rfl⟩ := Int.eq_ofNat_of_zero_le h0
  have hn : n < 2 ^ w := by exact_mod_cast h2
  have hsigncast : ((n / 2 ^ (w - 1) % 2 : Nat) : Int) = (n : Int) / 2 ^ (w - 1) % 2 := by
    push_cast
    rfl
  have hsign : Int.land ((n : Int)) (2 ^ (w - 1)) = 0 ↔ n / 2 ^ (w - 1) % 2 = 0 := by
    have hc1 : ((2 ^ (w - 1) : Nat) : Int) = 2 ^ (w - 1) := by
      push_cast
      rfl
    have hl : Int.land ((n : Int)) (2 ^ (w - 1)) = ((n &&& 2 ^ (w - 1) : Nat) : Int) := by
      rw [← hc1, ← Int.ofNat_eq_coe, ← Int.ofNat_eq_coe, ← Int.ofNat_eq_coe]
      exact int_land_ofNat n _
    rw [hl, Nat.and_two_pow]
    rcases hbt : n.testBit (w - 1) with _ | _
    · have hz : n / 2 ^ (w - 1) % 2 = 0 := by
        have h3 : ¬ (n / 2 ^ (w - 1) % 2 = 1) := by simpa [Nat.testBit_to_div_mod] using hbt
        omega
      simp [hz]
    · have ho : n / 2 ^ (w - 1) % 2 = 1 := by simpa [Nat.testBit_to_div_mod] using hbt
      have hpow : ((2 ^ (w - 1) : Nat) : Int) ≠ 0 := by positivity
      simp [ho, hpow]
  have hmain : n / 2 ^ (w - 1) % 2 = 1 →
      arithmetic_right_shift ((n : Int)) shift w
        = ((n : Int) / 2 ^ shift + (2 ^ shift - 1) * 2 ^ (w - shift)) % 2 ^ w := by
    intro hbit1
    by_cases hsz : shift = 0
    · subst hsz
      simp only [arithmetic_right_shift, if_pos rfl]
      rw [pow_zero]
      norm_num
      exact (Int.emod_eq_of_lt h0 h2).symm
    · simp only [arithmetic_right_shift, if_neg hsz]
      rw [if_pos (by
        intro hc
        have := hsign.mp hc
        omega)]
      have hshiftn : ((n : Int)) >>> shift = ((n / 2 ^ shift : Nat) : Int) := by
        rw [int_shiftRight_eq_div]
        push_cast
        rfl
      have hfill : ((2 : Int) ^ shift - 1) * 2 ^ (w - shift)
          = (((2 ^ shift - 1) * 2 ^ (w - shift) : Nat) : Int) := by
        push_cast [Nat.one_le_two_pow]
        ring
      have hdivlt : n / 2 ^ shift < 2 ^ (w - shift) := by
        rw [Nat.div_lt_iff_lt_mul (Nat.two_pow_pos _)]
        calc n < 2 ^ w := hn
          _ ≤ 2 ^ (w - shift) * 2 ^ shift := le_of_eq (by rw [← pow_add] ; congr 1 ; omega)
      have hor_add : n / 2 ^ shift ||| (2 ^ shift - 1) * 2 ^ (w - shift)
          = n / 2 ^ shift + (2 ^ shift - 1) * 2 ^ (w - shift) := by
        have h5 := Nat.mul_add_lt_is_or hdivlt (2 ^ shift - 1)
        rw [Nat.lor_comm, mul_comm ((2 : Nat) ^ shift - 1) (2 ^ (w - shift))]
        omega
      rw [hshiftn, hfill, int_lor_coe, hor_add, int_land_two_pow_sub_one]
      push_cast [Nat.one_le_two_pow]
      ring_nf
  refine ⟨by simp [arithmetic_right_shift], ?_, ?_, ?_⟩
  · intro hbit0
    have hbit0n : n / 2 ^ (w - 1) % 2 = 0 := by
      have h4 : ((n / 2 ^ (w - 1) % 2 : Nat) : Int) = 0 := by rw [hsigncast, hbit0]
      exact_mod_cast h4
    by_cases hsz : shift = 0
    · subst hsz
      simp only [arithmetic_right_shift, if_pos rfl, pow_zero]
      norm_num
    · simp only [arithmetic_right_shift, if_neg hsz]
      rw [if_neg (not_not_intro (hsign.mpr hbit0n))]
      exact int_shiftRight_eq_div _ _
  · intro hbit1
    have hbit1n : n / 2 ^ (w - 1) % 2 = 1 := by
      have h4 : ((n / 2 ^ (w - 1) % 2 : Nat) : Int) = 1 := by rw [hsigncast, hbit1]
      exact_mod_cast h4
    exact hmain hbit1n
  · rintro ⟨hbit1, hsw⟩
    have hbit1n : n / 2 ^ (w - 1) % 2 = 1 := by
      have h4 : ((n / 2 ^ (w - 1) % 2 : Nat) : Int) = 1 := by rw [hsigncast, hbit1]
      exact_mod_cast h4
    rw [hmain hbit1n, hsw, Nat.sub_self, pow_zero, mul_one,
      Int.ediv_eq_zero_of_lt h0 h2, zero_add]
    have hp : (0 : Int) < 2 ^ w := by positivity
    apply Int.emod_eq_of_lt <;> omega

theorem C9_arithmetic_right_shift_witness :
    ((1 : Nat) ≤ 4 ∧ (0 : Int) ≤ 9 ∧ (9 : Int) < 2 ^ 4 ∧ (2 : Nat) ≤ 4) ∧
    (arithmetic_right_shift 9 0 4 = 9 ∧
     ((9 : Int) / 2 ^ (4 - 1) % 2 = 0 → arithmetic_right_shift 9 2 4 = 9 / 2 ^ 2) ∧
     ((9 : Int) / 2 ^ (4 - 1) % 2 = 1 →
       arithmetic_right_shift 9 2 4 = ((9 : Int) / 2 ^ 2 + (2 ^ 2 - 1) * 2 ^ (4 - 2)) % 2 ^ 4) ∧
     ((9 : Int) / 2 ^ (4 - 1) % 2 = 1 ∧ 2 = 4 → arithmetic_right_shift 9 2 4 = 2 ^ 4 - 1)) :=
  ⟨⟨by norm_num, by norm_num, by norm_num, by norm_num⟩,
    C9_arithmetic_right_shift 4 2 9 (by norm_num) (by norm_num) (by norm_num) (by norm_num)⟩

/-- C2: the four multiplier variants agree bit for bit on every input, and their
common value is the product of the width-w interpretations of the operands
(masked raw values when unsigned, sign-extended values when signed) reduced to
`2 * w` bits; no flags are ever produced. -/
theorem C2_multipliers (a b : Int) (w : Nat) (s : Bool) (h1 : 1 ≤ w) :
    mul_booth a b w s = mul_sequential a b w s ∧
    mul_bit a b w s = mul_sequential a b w s ∧
    mul_bitpair a b w s = mul_sequential a b w s ∧
    (mul_sequential a b w false).1 = mask_to_width a w * mask_to_width b w % 2 ^ (2 * w) ∧
    (mul_sequential a b w true).1
      = sign_extend (mask_to_width a w) w * sign_extend (mask_to_width b w) w % 2 ^ (2 * w) ∧
    (mul_sequential a b w s).2 = ({} : Flags) := by
  have hu : (mul_sequential a b w false).1
      = mask_to_width a w * mask_to_width b w % 2 ^ (2 * w) := by
    rw [mul_sequential_unsigned_eq, mask_to_width_eq, mask_to_width_eq]
  have hsg : (mul_sequential a b w true).1
      = sign_extend (mask_to_width a w) w * sign_extend (mask_to_width b w) w % 2 ^ (2 * w) := by
    rw [mul_sequential_signed_eq a b w h1]
  cases s
  · refine ⟨mul_booth_unsigned_eq a b w, ?_, mul_bitpair_unsigned_eq a b w, hu, hsg, ?_⟩
    · rw [mul_bit_unsigned_eq, mul_sequential_unsigned_eq]
    · rw [mul_sequential_unsigned_eq]
  · refine ⟨?_, ?_, ?_, hu, hsg, ?_⟩
    · rw [mul_booth_signed_eq, mul_sequential_signed_eq a b w h1]
    · rw [mul_bit_signed_eq a b w h1, mul_sequential_signed_eq a b w h1]
    · rw [mul_bitpair_signed_eq, mul_sequential_signed_eq a b w h1]
    · rw [mul_sequential_signed_eq a b w h1]

theorem C2_multipliers_witness :
    ((1 : Nat) ≤ 8) ∧
    (mul_booth 5 6 8 true = mul_sequential 5 6 8 true ∧
     mul_bit 5 6 8 true = mul_sequential 5 6 8 true ∧
     mul_bitpair 5 6 8 true = mul_sequential 5 6 8 true ∧
     (mul_sequential 5 6 8 false).1 = mask_to_width 5 8 * mask_to_width 6 8 % 2 ^ (2 * 8) ∧
     (mul_sequential 5 6 8 true).1
       = sign_extend (mask_to_width 5 8) 8 * sign_extend (mask_to_width 6 8) 8 % 2 ^ (2 * 8) ∧
     (mul_sequential 5 6 8 true).2 = ({} : Flags)) :=
  ⟨by norm_num, C2_multipliers 5 6 8 true (by norm_num)⟩

/-- C6 counterexample: the claim says a raw-nonzero divisor never triggers the
division-by-zero error, but the signed non-restoring divider re-raises from its
inner unsigned call when the masked divisor is zero: `divide(0, 256, 8, signed)`. -/
theorem C6_counterexample :
    (256 : Int) ≠ 0 ∧ div_nonrestoring 0 256 8 true = none := by
  constructor
  · norm_num
  · apply div_nonrestoring_signed_zero 0 256 8 (by norm_num)
    have hm : mask_to_width 256 8 = 0 := by
      rw [mask_to_width_eq]
      decide
    rw [hm]
    decide

/-- C6 amended: `div_restoring` fails exactly when the raw divisor is zero (checked
before any masking, in both modes), and so does unsigned `div_nonrestoring`; signed
`div_nonrestoring` additionally fails when the sign-extended masked divisor is zero,
because its inner unsigned restoring call re-checks the reduced divisor.  In
particular `divide(a, 0, w, s)` always fails. -/
theorem C6_division_by_zero (a b : Int) (w : Nat) (s : Bool) :
    (div_restoring a b w s = none ↔ b = 0) ∧
    (div_nonrestoring a b w false = none ↔ b = 0) ∧
    (div_nonrestoring a b w true = none ↔
      b = 0 ∨ sign_extend (mask_to_width b w) w = 0) := by
  have hrest : ∀ s2 : Bool, div_restoring a b w s2 = none ↔ b = 0 := by
    intro s2
    by_cases hb : b = 0
    · simp [div_restoring, hb]
    · cases s2 <;> simp [div_restoring, hb]
  refine ⟨hrest s, ?_, ?_⟩
  · rw [div_nonrestoring_unsigned_eq]
    exact hrest false
  · by_cases hb : b = 0
    · simp [div_nonrestoring, hb]
    · by_cases hbm : sign_extend (mask_to_width b w) w = 0
      · rw [div_nonrestoring_signed_zero a b w hb hbm]
        simp [hb, hbm]
      · have h1 : 1 ≤ w := by
          by_contra hw
          apply hbm
          have hw0 : w = 0 := by omega
          subst hw0
          rw [mask_to_width_eq]
          rw [show ((2 : Int) ^ 0) = 1 from rfl, Int.emod_one]
          decide
        rw [div_nonrestoring_signed_eq a b w h1 hb hbm,
          div_restoring_signed_eq a b w h1 hb hbm]
        simp [hb, hbm]

/-- C10: in unsigned mode with a nonzero masked divisor both dividers return
exactly the euclidean quotient and remainder of the masked operands; in
particular `0 ≤ remainder < masked divisor`, which is stronger than the division
identity alone. -/
theorem C10_unsigned_euclidean (a b : Int) (w : Nat) (h1 : 1 ≤ w)
    (hbm : mask_to_width b w ≠ 0) :
    div_restoring a b w false
        = some (mask_to_width a w / mask_to_width b w,
                mask_to_width a w % mask_to_width b w) ∧
    div_nonrestoring a b w false
        = some (mask_to_width a w / mask_to_width b w,
                mask_to_width a w % mask_to_width b w) ∧
    0 ≤ mask_to_width a w % mask_to_width b w ∧
    mask_to_width a w % mask_to_width b w < mask_to_width b w := by
  have hb : b ≠ 0 := by
    intro hb0
    apply hbm
    rw [hb0, mask_to_width_eq]
    norm_num
  have hbpos : 0 < mask_to_width b w := lt_of_le_of_ne (mask_to_width_nonneg b w) (Ne.symm hbm)
  refine ⟨div_restoring_unsigned_eq a b w hb hbm, ?_, ?_, ?_⟩
  · rw [div_nonrestoring_unsigned_eq]
    exact div_restoring_unsigned_eq a b w hb hbm
  · rw [mask_to_width_eq, mask_to_width_eq]
    apply Int.emod_nonneg
    rw [← mask_to_width_eq]
    exact hbm
  · rw [mask_to_width_eq, mask_to_width_eq]
    have := Int.emod_lt_of_pos (a % 2 ^ w) (show (0 : Int) < b % 2 ^ w from by
      rw [← mask_to_width_eq] ; exact hbpos)
    simpa [mask_to_width_eq] using this

theorem C10_unsigned_euclidean_witness :
    ((1 : Nat) ≤ 4 ∧ mask_to_width 4 4 ≠ 0) ∧
    (div_restoring 13 4 4 false
        = some (mask_to_width 13 4 / mask_to_width 4 4,
                mask_to_width 13 4 % mask_to_width 4 4) ∧
     div_nonrestoring 13 4 4 false
        = some (mask_to_width 13 4 / mask_to_width 4 4,
                mask_to_width 13 4 % mask_to_width 4 4) ∧
     0 ≤ mask_to_width 13 4 % mask_to_width 4 4 ∧
     mask_to_width 13 4 % mask_to_width 4 4 < mask_to_width 4 4) :=
  ⟨⟨by norm_num, by decide⟩, C10_unsigned_euclidean 13 4 4 (by norm_num) (by decide)⟩

theorem sign_extend_zero (w : Nat) : sign_extend 0 w = 0 := by
  rw [sign_extend_eq 0 w le_rfl (by positivity)]
  rw [if_neg (not_le.mpr (by positivity))]

theorem mask_to_width_idem (x : Int) (w : Nat) :
    mask_to_width (mask_to_width x w) w = mask_to_width x w := by
  rw [mask_to_width_eq, mask_to_width_eq]
  exact Int.emod_emod_of_dvd x dvd_rfl

/-- Congruent factors and a true division identity give the identity mod `n`. -/
theorem emod_identity_helper (As Qs Bs Rs a0 q0 b0 r0 n : Int)
    (hA : As % n = a0 % n) (hQ : Qs % n = q0 % n) (hB : Bs % n = b0 % n)
    (hR : Rs % n = r0 % n) (hid : q0 * b0 + r0 = a0) :
    (As - (Qs * Bs + Rs)) % n = 0 := by
  rw [Int.sub_emod, hA, Int.add_emod, Int.mul_emod, hQ, hB, hR, ← Int.mul_emod, ← Int.add_emod,
    hid]
  simp

/-- Sign-magnitude recombination for euclidean division: reapplying the operand
signs to the magnitude quotient and remainder reconstructs the dividend. -/
theorem signed_div_identity (x y : Int) :
    (if decide (x < 0) != decide (y < 0) then -(|x| / |y|) else |x| / |y|) * y
      + (if decide (x < 0) then -(|x| % |y|) else |x| % |y|) = x := by
  have h0 : |y| * (|x| / |y|) + |x| % |y| = |x| := Int.ediv_add_emod |x| |y|
  rcases lt_or_ge x 0 with hx | hx <;> rcases lt_or_ge y 0 with hy | hy
  · rw [if_neg (by simp [hx, hy]), if_pos (by simp [hx])]
    rw [abs_of_neg hx, abs_of_neg hy] at h0 ⊢
    linarith [h0]
  · rw [if_pos (by simp [hx, not_lt.mpr hy]), if_pos (by simp [hx])]
    rw [abs_of_neg hx, abs_of_nonneg hy] at h0 ⊢
    linarith [h0]
  · rw [if_pos (by simp [not_lt.mpr hx, hy]), if_neg (by simp [not_lt.mpr hx])]
    rw [abs_of_nonneg hx, abs_of_neg hy] at h0 ⊢
    linarith [h0]
  · rw [if_neg (by simp [not_lt.mpr hx, not_lt.mpr hy]), if_neg (by simp [not_lt.mpr hx])]
    rw [abs_of_nonneg hx, abs_of_nonneg hy] at h0 ⊢
    linarith [h0]

/-- Range of the sign-corrected quotient: representable except for the single
overflow pair `(dividend, divisor) = (-2 ^ (w-1), -1)`. -/
theorem signed_quotient_bounds (a1 b1 : Int) (w : Nat) (h1 : 1 ≤ w)
    (ha_lo : -(2 ^ (w - 1)) ≤ a1) (ha_hi : a1 < 2 ^ (w - 1))
    (hb_lo : -(2 ^ (w - 1)) ≤ b1) (hb_hi : b1 < 2 ^ (w - 1))
    (hbne : b1 ≠ 0)
    (hexc : ¬(a1 = -(2 ^ (w - 1)) ∧ b1 = -1)) :
    -(2 ^ (w - 1)) ≤ (if decide (a1 < 0) != decide (b1 < 0)
        then -(|a1| / |b1|) else |a1| / |b1|)
      ∧ (if decide (a1 < 0) != decide (b1 < 0)
        then -(|a1| / |b1|) else |a1| / |b1|) < 2 ^ (w - 1) := by
  have hppos : (0 : Int) < 2 ^ (w - 1) := by positivity
  have habs_a : |a1| ≤ 2 ^ (w - 1) := by
    rcases abs_cases a1 with ⟨h, _⟩ | ⟨h, _⟩ <;> omega
  have habs_b : 0 < |b1| := abs_pos.mpr hbne
  have hD0 : 0 ≤ |a1| / |b1| := Int.ediv_nonneg (abs_nonneg _) (abs_nonneg _)
  have hDle : |a1| / |b1| ≤ |a1| := Int.ediv_le_self _ (abs_nonneg _)
  rcases hrn : (decide (a1 < 0) != decide (b1 < 0)) with _ | _
  · simp only [Bool.false_eq_true, if_false]
    refine ⟨by omega, ?_⟩
    by_contra hD
    push_neg at hD
    have hmul : 2 ^ (w - 1) * |b1| ≤ |a1| := (Int.le_ediv_iff_mul_le habs_b).mp hD
    have hb1one : |b1| = 1 := by
      by_contra hb2
      have hb2' : 2 ≤ |b1| := by omega
      have : 2 ^ (w - 1) * 2 ≤ 2 ^ (w - 1) * |b1| :=
        mul_le_mul_of_nonneg_left hb2' (le_of_lt hppos)
      omega
    have ha1abs : |a1| = 2 ^ (w - 1) := by
      rw [hb1one, mul_one] at hmul
      omega
    have ha1eq : a1 = -(2 ^ (w - 1)) := by
      rcases abs_cases a1 with ⟨h, _⟩ | ⟨h, _⟩ <;> omega
    have hiff : (a1 < 0) ↔ (b1 < 0) :=
      decide_eq_decide.mp (bne_eq_false_iff_eq.mp hrn)
    have hb1neg : b1 < 0 := hiff.mp (by omega)
    have hb1eq : b1 = -1 := by
      rcases abs_cases b1 with ⟨h, _⟩ | ⟨h, _⟩ <;> omega
    exact hexc ⟨ha1eq, hb1eq⟩
  · rw [if_pos rfl]
    constructor <;> omega

/-- Range of the sign-corrected remainder: always representable. -/
theorem signed_remainder_bounds (a1 b1 : Int) (w : Nat) (h1 : 1 ≤ w)
    (hb_lo : -(2 ^ (w - 1)) ≤ b1) (hb_hi : b1 < 2 ^ (w - 1)) (hbne : b1 ≠ 0) :
    -(2 ^ (w - 1)) ≤ (if decide (a1 < 0) then -(|a1| % |b1|) else |a1| % |b1|)
      ∧ (if decide (a1 < 0) then -(|a1| % |b1|) else |a1| % |b1|) < 2 ^ (w - 1) := by
  have hppos : (0 : Int) < 2 ^ (w - 1) := by positivity
  have habs_b : |b1| ≤ 2 ^ (w - 1) := by
    rcases abs_cases b1 with ⟨h, _⟩ | ⟨h, _⟩ <;> omega
  have hM0 : 0 ≤ |a1| % |b1| := Int.emod_nonneg _ (abs_ne_zero.mpr hbne)
  have hMlt : |a1| % |b1| < |b1| := Int.emod_lt_of_pos _ (abs_pos.mpr hbne)
  rcases hc : decide (a1 < 0) with _ | _
  · simp only [Bool.false_eq_true, if_false]
    constructor <;> omega
  · rw [if_pos rfl]
    constructor <;> omega

/-- C1 counterexample: at width 8 in signed mode with raw inputs a = 128 and
b = 255 (sign-extended values -128 and -1, both dividers defined and agreeing),
the returned pair is (128, 0), whose sign-extended interpretation -128 does not
satisfy the exact identity: Qs * Bs + Rs = (-128) * (-1) + 0 = 128 ≠ -128 = As. -/
theorem C1_counterexample :
    div_restoring 128 255 8 true = some (128, 0) ∧
    div_nonrestoring 128 255 8 true = some (128, 0) ∧
    sign_extend (mask_to_width 128 8) 8 = -128 ∧
    sign_extend (mask_to_width 255 8) 8 = -1 ∧
    sign_extend (mask_to_width 128 8) 8
      ≠ sign_extend (mask_to_width 128 8) 8 * sign_extend (mask_to_width 255 8) 8
          + sign_extend (mask_to_width 0 8) 8 := by
  have hres : div_restoring 128 255 8 true = some (128, 0) := by
    rw [div_restoring_signed_eq 128 255 8 (by norm_num) (by norm_num) (by decide)]
    decide
  refine ⟨hres, ?_, by decide, by decide, by decide⟩
  rw [div_nonrestoring_signed_eq 128 255 8 (by norm_num) (by norm_num) (by decide)]
  exact hres

/-- C1 amended: for both divider variants, every width `w ≥ 1` and every call
returning a pair (raw divisor nonzero): the division identity holds modulo
`2 ^ w` in all modes; in unsigned mode the identity `mask a = q * mask b + r`
holds exactly over the raw values; and in signed mode the sign-extended identity
holds exactly except for the single overflow input class As = -2^(w-1), Bs = -1
(where the true quotient 2^(w-1) is unrepresentable). -/
theorem C1_division_identity (a b : Int) (w : Nat) (s : Bool) (q r : Int) (h1 : 1 ≤ w)
    (h2 : div_restoring a b w s = some (q, r) ∨ div_nonrestoring a b w s = some (q, r)) :
    (sign_extend (mask_to_width a w) w
        - (sign_extend (mask_to_width q w) w * sign_extend (mask_to_width b w) w
            + sign_extend (mask_to_width r w) w)) % 2 ^ w = 0 ∧
    (s = false → mask_to_width a w = q * mask_to_width b w + r) ∧
    (s = true →
      ¬(sign_extend (mask_to_width a w) w = -(2 ^ (w - 1))
          ∧ sign_extend (mask_to_width b w) w = -1) →
      sign_extend (mask_to_width a w) w
        = sign_extend (mask_to_width q w) w * sign_extend (mask_to_width b w) w
          + sign_extend (mask_to_width r w) w) := by
  cases s
  · have hres : div_restoring a b w false = some (q, r) := by
      rcases h2 with h2 | h2
      · exact h2
      · rw [← div_nonrestoring_unsigned_eq]
        exact h2
    have hb : b ≠ 0 := by
      intro hb0
      rw [hb0] at hres
      simp [div_restoring] at hres
    by_cases hbm : mask_to_width b w = 0
    · rw [div_restoring_unsigned_zero_eq a b w hb hbm] at hres
      have hqr : ((2 ^ w - 1 : Nat) : Int) = q ∧ mask_to_width a w = r := by
        simpa using hres
      obtain ⟨hq, hr⟩ := hqr
      refine ⟨?_, ?_, fun hc => absurd hc (by simp)⟩
      · rw [hbm, sign_extend_zero, mul_zero, zero_add, ← hr, mask_to_width_idem]
        simp
      · intro _
        rw [hbm, mul_zero, zero_add, hr]
    · rw [div_restoring_unsigned_eq a b w hb hbm] at hres
      have hqr : mask_to_width a w / mask_to_width b w = q ∧
          mask_to_width a w % mask_to_width b w = r := by
        simpa using hres
      obtain ⟨hq, hr⟩ := hqr
      have hid0 : q * mask_to_width b w + r = mask_to_width a w := by
        rw [← hq, ← hr]
        have h3 := Int.ediv_add_emod (mask_to_width a w) (mask_to_width b w)
        linarith
      refine ⟨?_, fun _ => hid0.symm, fun hc => absurd hc (by simp)⟩
      exact emod_identity_helper _ _ _ _ (mask_to_width a w) q (mask_to_width b w) r _
        (sign_extend_emod _ w (mask_to_width_nonneg a w) (mask_to_width_lt a w))
        (sign_extend_mask_emod q w)
        (sign_extend_emod _ w (mask_to_width_nonneg b w) (mask_to_width_lt b w))
        (sign_extend_mask_emod r w) hid0
  · have hb : b ≠ 0 := by
      intro hb0
      rcases h2 with h2 | h2 <;> rw [hb0] at h2 <;>
        simp [div_restoring, div_nonrestoring] at h2
    have hA_bounds := sign_extend_bounds (mask_to_width a w) w h1 (mask_to_width_nonneg a w)
      (mask_to_width_lt a w)
    by_cases hbm : sign_extend (mask_to_width b w) w = 0
    · have hres : div_restoring a b w true = some (q, r) := by
        rcases h2 with h2 | h2
        · exact h2
        · rw [div_nonrestoring_signed_zero a b w hb hbm] at h2
          exact absurd h2 (by simp)
      rw [div_restoring_signed_zero_eq a b w h1 hb hbm] at hres
      have hqr : mask_to_width (if decide (sign_extend (mask_to_width a w) w < 0)
            then -((2 ^ w - 1 : Nat) : Int) else ((2 ^ w - 1 : Nat) : Int)) w = q ∧
          mask_to_width (sign_extend (mask_to_width a w) w) w = r := by
        simpa using hres
      obtain ⟨hq, hr⟩ := hqr
      have hRs : sign_extend (mask_to_width r w) w = sign_extend (mask_to_width a w) w := by
        rw [← hr, mask_to_width_idem]
        exact sign_extend_mask_eq_self _ w h1 hA_bounds.1 hA_bounds.2
      refine ⟨?_, fun hc => absurd hc (by simp), ?_⟩
      · rw [hbm, mul_zero, zero_add, hRs]
        simp
      · intro _ _
        rw [hbm, mul_zero, zero_add, hRs]
    · have hres : div_restoring a b w true = some (q, r) := by
        rcases h2 with h2 | h2
        · exact h2
        · rw [div_nonrestoring_signed_eq a b w h1 hb hbm] at h2
          exact h2
      rw [div_restoring_signed_eq a b w h1 hb hbm] at hres
      set a1 := sign_extend (mask_to_width a w) w with ha1def
      set b1 := sign_extend (mask_to_width b w) w with hb1def
      have hB_bounds := sign_extend_bounds (mask_to_width b w) w h1 (mask_to_width_nonneg b w)
        (mask_to_width_lt b w)
      have hqr : mask_to_width (if decide (a1 < 0) != decide (b1 < 0)
            then -(|a1| / |b1|) else |a1| / |b1|) w = q ∧
          mask_to_width (if decide (a1 < 0) then -(|a1| % |b1|) else |a1| % |b1|) w = r := by
        simpa using hres
      obtain ⟨hq, hr⟩ := hqr
      have hid : (if decide (a1 < 0) != decide (b1 < 0)
            then -(|a1| / |b1|) else |a1| / |b1|) * b1
          + (if decide (a1 < 0) then -(|a1| % |b1|) else |a1| % |b1|) = a1 :=
        signed_div_identity a1 b1
      refine ⟨?_, fun hc => absurd hc (by simp), ?_⟩
      · exact emod_identity_helper _ _ _ _ a1
          (if decide (a1 < 0) != decide (b1 < 0) then -(|a1| / |b1|) else |a1| / |b1|) b1
          (if decide (a1 < 0) then -(|a1| % |b1|) else |a1| % |b1|) _
          rfl
          (by rw [← hq, mask_to_width_idem] ; exact sign_extend_mask_emod _ w)
          rfl
          (by rw [← hr, mask_to_width_idem] ; exact sign_extend_mask_emod _ w)
          hid
      · intro _ hexc
        have hqb := signed_quotient_bounds a1 b1 w h1 hA_bounds.1 hA_bounds.2 hB_bounds.1
          hB_bounds.2 hbm hexc
        have hrb := signed_remainder_bounds a1 b1 w h1 hB_bounds.1 hB_bounds.2 hbm
        have hQs : sign_extend (mask_to_width q w) w
            = (if decide (a1 < 0) != decide (b1 < 0) then -(|a1| / |b1|) else |a1| / |b1|) := by
          rw [← hq, mask_to_width_idem]
          exact sign_extend_mask_eq_self _ w h1 hqb.1 hqb.2
        have hRs : sign_extend (mask_to_width r w) w
            = (if decide (a1 < 0) then -(|a1| % |b1|) else |a1| % |b1|) := by
          rw [← hr, mask_to_width_idem]
          exact sign_extend_mask_eq_self _ w h1 hrb.1 hrb.2
        rw [hQs, hRs, hid]

example : div_restoring 15 1 4 false = some (15, 0) := by decide

theorem C1_division_identity_witness :
    ((1 : Nat) ≤ 4 ∧
      (div_restoring 15 1 4 false = some (15, 0) ∨
        div_nonrestoring 15 1 4 false = some (15, 0))) ∧
    ((sign_extend (mask_to_width 15 4) 4
        - (sign_extend (mask_to_width 15 4) 4 * sign_extend (mask_to_width 1 4) 4
            + sign_extend (mask_to_width 0 4) 4)) % 2 ^ 4 = 0 ∧
     (false = false → mask_to_width 15 4 = 15 * mask_to_width 1 4 + 0) ∧
     (false = true →
       ¬(sign_extend (mask_to_width 15 4) 4 = -(2 ^ (4 - 1))
           ∧ sign_extend (mask_to_width 1 4) 4 = -1) →
       sign_extend (mask_to_width 15 4) 4
         = sign_extend (mask_to_width 15 4) 4 * sign_extend (mask_to_width 1 4) 4
           + sign_extend (mask_to_width 0 4) 4)) :=
  ⟨⟨by norm_num, Or.inl (by decide)⟩,
    C1_division_identity 15 1 4 false 15 0 (by norm_num) (Or.inl (by decide))⟩

end ArithAlgorithms
